import Mathlib

/-!
Verification of the `no_std` listener list of the `event-listener` crate
(`src/no_std.rs`): the slab-backed intrusive doubly-linked list `ListenerSlab`
with its operations `insert`, `remove`, `notify`, `register`, and the
`notified` counter published on unlock by `ListGuard::drop`.

The embedding is executable: every operation is a total Lean function into
`Option`, where `none` models the abort paths of the Rust code (an
`unreachable!()` arm or an out-of-bounds slab index, both of which panic).
Machine integers (`usize`) are modelled as `Nat`; the algorithms never rely on
wrap-around, and the one deliberately saturating operation
(`notified.saturating_sub(1)`) coincides with truncated `Nat` subtraction.
-/

namespace EventListener

/-- Modelled from the spec: the listener `State` enum lives in the crate root,
which is not part of the embedded sources; its four variants are given in the
spec's data model. Task handles are abstracted as natural-number identifiers,
with the `will_wake` equivalence check modelled as equality. -/
inductive State where
  | created : State
  | task : Nat → State
  | notified : Bool → State
  | notifiedTaken : State
  deriving DecidableEq, Repr

/-- Modelled from the spec: `is_notified` holds exactly for `Notified(_)` and
`NotifiedTaken`. -/
def State.isNotified : State → Bool
  | .notified _ => true
  | .notifiedTaken => true
  | _ => false

/-- An entry of the slab (`enum Entry` in `no_std.rs`). The interior-mutable
cells are flattened into plain fields: the slab owns its entries under the
lock, so cell mutation is ordinary functional update here. Keys are plain
`Nat` indices; the non-zero guarantee of `NonZeroUsize` is an invariant. -/
inductive Entry where
  | listener : State → Option Nat → Option Nat → Entry
  | empty : Nat → Entry
  | sentinel : Entry
  deriving DecidableEq, Repr

/-- `Entry::state`: defined only on `Listener` entries; `none` models the
`unreachable!()` arm. -/
def Entry.stateOf : Entry → Option State
  | .listener st _ _ => some st
  | _ => none

/-- `Entry::prev`, read access. -/
def Entry.prevOf : Entry → Option (Option Nat)
  | .listener _ p _ => some p
  | _ => none

/-- `Entry::next`, read access. -/
def Entry.nextOf : Entry → Option (Option Nat)
  | .listener _ _ n => some n
  | _ => none

/-- `self.listeners[i].next().set(v)`: panics (`none`) unless entry `i` is a
`Listener`. -/
def setNextEntry (ls : List Entry) (i : Nat) (v : Option Nat) : Option (List Entry) :=
  match ls.get? i with
  | some (.listener st p _) => some (ls.set i (.listener st p v))
  | _ => none

/-- `self.listeners[i].prev().set(v)`. -/
def setPrevEntry (ls : List Entry) (i : Nat) (v : Option Nat) : Option (List Entry) :=
  match ls.get? i with
  | some (.listener st _ n) => some (ls.set i (.listener st v n))
  | _ => none

/-- The slab (`struct ListenerSlab`). -/
structure ListenerSlab where
  listeners : List Entry
  head : Option Nat
  tail : Option Nat
  start : Option Nat
  notified : Nat
  len : Nat
  first_empty : Nat
  deriving DecidableEq, Repr

/-- `ListenerSlab::new`. -/
def ListenerSlab.new : ListenerSlab :=
  { listeners := [.sentinel], head := none, tail := none, start := none,
    notified := 0, len := 0, first_empty := 1 }

/-- `ListenerSlab::insert`. Returns the key of the new entry together with the
updated slab, or `none` on a panic path (bad free list). -/
def ListenerSlab.insert (s : ListenerSlab) (state : State) : Option (Nat × ListenerSlab) := do
  let key := s.first_empty
  let entry : Entry := .listener state s.tail none
  let (ls, fe) ←
    if key = s.listeners.length then
      some (s.listeners ++ [entry], s.listeners.length + 1)
    else
      match s.listeners.get? key with
      | some (.empty nx) => some (s.listeners.set key entry, nx)
      | _ => none
  let s1 : ListenerSlab := { s with listeners := ls, first_empty := fe }
  let s2 : ListenerSlab ←
    match s1.tail with
    | none => some { s1 with head := some key, tail := some key }
    | some t => do
        let ls2 ← setNextEntry s1.listeners t (some key)
        some { s1 with listeners := ls2, tail := some key }
  let s3 := if s2.start = none then { s2 with start := some key } else s2
  some (key, { s3 with len := s3.len + 1 })

/-- The `while n > 0` loop of `ListenerSlab::notify`, by recursion on `n`.
Besides the final slab it returns the keys of the entries it visited, in visit
order (the Rust loop wakes any registered task of each visited entry at that
point, so this list is the order in which notifications are handed out). -/
def notifyLoop (additional : Bool) : Nat → ListenerSlab → Option (ListenerSlab × List Nat)
  | 0, s => some (s, [])
  | n + 1, s =>
    match s.start with
    | none => some (s, [])
    | some e =>
      match s.listeners.get? e with
      | some (.listener _ p nx) => do
          let s' : ListenerSlab :=
            { s with
              listeners := s.listeners.set e (.listener (.notified additional) p nx),
              start := nx,
              notified := s.notified + 1 }
          let (s'', vis) ← notifyLoop additional n s'
          some (s'', e :: vis)
      | _ => none

/-- `ListenerSlab::notify`. -/
def ListenerSlab.notify (s : ListenerSlab) (n : Nat) (additional : Bool) :
    Option (ListenerSlab × List Nat) :=
  if additional then notifyLoop additional n s
  else if n ≤ s.notified then some (s, [])
  else notifyLoop additional (n - s.notified) s

/-- The counter-update tail of `ListenerSlab::remove` (everything from
`if state.is_notified()` on), on the slab `s4` whose links have already been
spliced. `self.notified.saturating_sub(1)` and `self.len -= 1` are truncated
`Nat` subtraction. -/
def ListenerSlab.removeFinish (s4 : ListenerSlab) (state : State) (propogate : Bool) :
    Option (State × ListenerSlab) := do
  let s5 : ListenerSlab ←
    if state.isNotified then
      let sN : ListenerSlab := { s4 with notified := s4.notified - 1 }
      if propogate then
        match state with
        | .notified additional => (sN.notify 1 additional).map Prod.fst
        | _ => some sN
      else some sN
    else some s4
  some (state, { s5 with len := s5.len - 1 })

/-- `ListenerSlab::remove`. Returns the extracted state and the updated slab. -/
def ListenerSlab.remove (s : ListenerSlab) (key : Nat) (propogate : Bool) :
    Option (State × ListenerSlab) := do
  let entry ← s.listeners.get? key
  let prev ← entry.prevOf
  let next ← entry.nextOf
  let s1 : ListenerSlab ←
    match prev with
    | none => some { s with head := next }
    | some p => do
        let ls ← setNextEntry s.listeners p next
        some { s with listeners := ls }
  let s2 : ListenerSlab ←
    match next with
    | none => some { s1 with tail := prev }
    | some nn => do
        let ls ← setPrevEntry s1.listeners nn prev
        some { s1 with listeners := ls }
  let s3 := if s2.start = some key then { s2 with start := next } else s2
  let old ← s3.listeners.get? key
  let s4 : ListenerSlab :=
    { s3 with
      listeners := s3.listeners.set key (.empty s3.first_empty),
      first_empty := key }
  let state ← old.stateOf
  s4.removeFinish state propogate

/-- The listener handle (`enum Listener`); the `TaskWaiting` payload of the
queued variant is irrelevant to the slab and elided. -/
inductive Listener where
  | hasNode : Nat → Listener
  | queued : Listener
  deriving DecidableEq, Repr

/-- `ListenerSlab::register`. The handle argument (`Pin<&mut Option<Listener>>`)
is passed and returned by value: the result is `(returned value, handle after
the call, slab after the call)`. In the already-notified branch the Rust code
has first replaced the state cell with `NotifiedTaken`, so that is what the
inner `remove` extracts. -/
def ListenerSlab.register (s : ListenerSlab) (listener : Option Listener) (task : Nat) :
    Option (Option Bool × Option Listener × ListenerSlab) :=
  match listener with
  | some (.hasNode key) =>
    (match s.listeners.get? key with
     | some (.listener st p nx) =>
       match st with
       | .notified _ | .notifiedTaken => do
           let sTaken : ListenerSlab :=
             { s with listeners := s.listeners.set key (.listener .notifiedTaken p nx) }
           let (_, s') ← sTaken.remove key false
           some (some true, none, s')
       | .task other =>
           let st' := if task = other then State.task other else State.task task
           some (some false, some (.hasNode key),
             { s with listeners := s.listeners.set key (.listener st' p nx) })
       | _ =>
           some (some false, some (.hasNode key),
             { s with listeners := s.listeners.set key (.listener (.task task) p nx) })
     | _ => none)
  | _ => some (none, listener, s)

/-! ## The list invariants

`dseg ls l p c e lk` says that starting at the pointer `c`, whose predecessor
pointer is `p`, the doubly-linked list threaded through `ls` spells exactly the
key/state pairs `l`, and that on falling off the end the forward pointer is `e`
while the last visited key is `lk` (or `p` again when `l` is empty). The full
list of a slab is `dseg ls l none head none tail`. -/
def dseg (ls : List Entry) :
    List (Nat × State) → Option Nat → Option Nat → Option Nat → Option Nat → Prop
  | [], p, c, e, lk => c = e ∧ lk = p
  | (k, st) :: rest, p, c, e, lk =>
      c = some k ∧ ∃ nx, ls.get? k = some (.listener st p nx) ∧ dseg ls rest (some k) nx e lk

/-- `freeChain ls cur fl`: chasing `Empty` links from index `cur` visits the
indices `fl` in order and terminates at the sentinel value `ls.length`. -/
def freeChain (ls : List Entry) : Nat → List Nat → Prop
  | cur, [] => cur = ls.length
  | cur, k :: rest => cur = k ∧ ∃ nx, ls.get? k = some (.empty nx) ∧ freeChain ls nx rest

/-- The pointer to the first element of `l`, or `e` if `l` is empty. -/
def entryPtr (l : List (Nat × State)) (e : Option Nat) : Option Nat :=
  match l with
  | [] => e
  | (k, _) :: _ => some k

/-- The key of the last element of `l`, or `p` if `l` is empty. -/
def lastPtr (l : List (Nat × State)) (p : Option Nat) : Option Nat :=
  match l with
  | [] => p
  | (k, _) :: rest => lastPtr rest (some k)

/-- Well-formedness of a slab (the spec's invariants 1-7), witnessed by the
logical list split into its notified prefix `l1`, its unnotified suffix `l2`,
and the free list `fl`. -/
structure WF (s : ListenerSlab) (l1 l2 : List (Nat × State)) (fl : List Nat) : Prop where
  chain : dseg s.listeners (l1 ++ l2) none s.head none s.tail
  start_eq : s.start = entryPtr l2 none
  l1_notified : ∀ pr ∈ l1, (Prod.snd pr).isNotified = true
  l2_unnotified : ∀ pr ∈ l2, (Prod.snd pr).isNotified = false
  len_eq : s.len = l1.length + l2.length
  notified_eq : s.notified = l1.length
  nodup : ((l1 ++ l2).map Prod.fst).Nodup
  sentinel0 : s.listeners.get? 0 = some Entry.sentinel
  free : freeChain s.listeners s.first_empty fl
  fl_nodup : fl.Nodup
  cover : ∀ i < s.listeners.length, i = 0 ∨ i ∈ (l1 ++ l2).map Prod.fst ∨ i ∈ fl

/-- Marking a batch of entries as `Notified additional`. -/
def markN (additional : Bool) (l : List (Nat × State)) : List (Nat × State) :=
  l.map (fun pr => (pr.1, State.notified additional))

/-- Slabs reachable from `ListenerSlab::new` by successful `insert(Created)`,
`remove`, `notify` and `register` operations. -/
inductive Reach : ListenerSlab → Prop where
  | new : Reach ListenerSlab.new
  | insert {s : ListenerSlab} {k : Nat} {s' : ListenerSlab} :
      Reach s → s.insert .created = some (k, s') → Reach s'
  | remove {s : ListenerSlab} {key : Nat} {p : Bool} {st : State} {s' : ListenerSlab} :
      Reach s → s.remove key p = some (st, s') → Reach s'
  | notify {s : ListenerSlab} {n : Nat} {a : Bool} {s' : ListenerSlab} {vis : List Nat} :
      Reach s → s.notify n a = some (s', vis) → Reach s'
  | register {s : ListenerSlab} {h : Option Listener} {t : Nat} {r : Option Bool}
      {h' : Option Listener} {s' : ListenerSlab} :
      Reach s → s.register h t = some (r, h', s') → Reach s'

/-- `k` successive `insert(Created)` calls, returning the keys in call order. -/
def insertN : Nat → ListenerSlab → Option (List Nat × ListenerSlab)
  | 0, s => some ([], s)
  | k + 1, s => do
      let (key, s1) ← s.insert .created
      let (ks, s2) ← insertN k s1
      some (key :: ks, s2)

/-- `j` repetitions of `notify(n, false)`. -/
def repeatNotify (n : Nat) : Nat → ListenerSlab → Option ListenerSlab
  | 0, s => some s
  | j + 1, s => (s.notify n false).bind fun pr => repeatNotify n j pr.1

/-- A slab holding three freshly inserted listeners (keys 1, 2, 3). -/
def slab3 : ListenerSlab :=
  { listeners := [.sentinel, .listener .created none (some 2),
      .listener .created (some 1) (some 3), .listener .created (some 2) none],
    head := some 1, tail := some 3, start := some 1, notified := 0, len := 3,
    first_empty := 4 }

/-- `slab3` after `notify(2, false)`: listeners 1 and 2 notified, 3 still
waiting. -/
def slab3n2 : ListenerSlab :=
  { listeners := [.sentinel, .listener (.notified false) none (some 2),
      .listener (.notified false) (some 1) (some 3), .listener .created (some 2) none],
    head := some 1, tail := some 3, start := some 3, notified := 2, len := 3,
    first_empty := 4 }

/-- `usize::MAX` on the 64-bit targets the crate is built for. -/
def usizeMax : Nat := 2 ^ 64 - 1

/-- The value `ListGuard::drop` stores into the public atomic `notified`
counter after draining the intake queue (`no_std.rs` lines 250-257). -/
def storedNotified (s : ListenerSlab) : Nat :=
  if s.notified < s.len then s.notified else usizeMax

/-- The slab produced by `slab3n2.remove 1 true`: the notification of
listener 1 is *not* migrated to listener 3 (the propagated `notify(1, false)`
is swallowed by the clamp `1 <= notified`), so `notified` drops to 1. -/
def slab3n2r : ListenerSlab :=
  { listeners := [.sentinel, .empty 4,
      .listener (.notified false) none (some 3),
      .listener .created (some 2) none],
    head := some 2, tail := some 3, start := some 3, notified := 1, len := 2,
    first_empty := 1 }

theorem lt_of_get?_some {ls : List Entry} {n : Nat} {a : Entry}
    (h : ls.get? n = some a) : n < ls.length := by
  by_contra hn
  rw [List.get?_eq_none.2 (Nat.le_of_not_lt hn)] at h
  exact Option.noConfusion h

theorem dseg_entry {ls : List Entry} {l p c e lk} (h : dseg ls l p c e lk) :
    c = entryPtr l e := by
  cases l with
  | nil => simp only [dseg] at h; exact h.1
  | cons a rest =>
      obtain ⟨k, st⟩ := a
      simp only [dseg] at h
      exact h.1

theorem dseg_last {ls : List Entry} :
    ∀ {l : List (Nat × State)} {p c e lk}, dseg ls l p c e lk → lk = lastPtr l p := by
  intro l
  induction l with
  | nil =>
      intro p c e lk h
      obtain ⟨h1, h2⟩ := h
      exact h2
  | cons a rest ih =>
      obtain ⟨k, st⟩ := a
      intro p c e lk h
      obtain ⟨hc, nx, hk, hrest⟩ := h
      exact ih hrest

theorem dseg_frame {ls ls' : List Entry} :
    ∀ {l : List (Nat × State)} {p c e lk},
      (∀ k ∈ l.map Prod.fst, ls'.get? k = ls.get? k) →
      dseg ls l p c e lk → dseg ls' l p c e lk := by
  intro l
  induction l with
  | nil => intro p c e lk _ h; exact h
  | cons a rest ih =>
      obtain ⟨k, st⟩ := a
      intro p c e lk hfr h
      obtain ⟨hc, nx, hk, hrest⟩ := h
      refine ⟨hc, nx, ?_, ih (fun j hj => hfr j (by simp [hj])) hrest⟩
      rw [hfr k (by simp)]; exact hk

theorem dseg_set_frame {ls : List Entry} {l : List (Nat × State)} {p c e lk}
    {k : Nat} {v : Entry} (hk : k ∉ l.map Prod.fst) (h : dseg ls l p c e lk) :
    dseg (ls.set k v) l p c e lk :=
  dseg_frame (fun j hj => List.get?_set_ne _ _ (fun hkj => hk (hkj ▸ hj))) h

theorem dseg_append_split {ls : List Entry} :
    ∀ {A B : List (Nat × State)} {p c e lk},
      dseg ls (A ++ B) p c e lk →
      ∃ m mk, dseg ls A p c m mk ∧ dseg ls B mk m e lk := by
  intro A
  induction A with
  | nil => intro B p c e lk h; exact ⟨c, p, ⟨rfl, rfl⟩, h⟩
  | cons a rest ih =>
      obtain ⟨k, st⟩ := a
      intro B p c e lk h
      obtain ⟨hc, nx, hk, hrest⟩ := h
      obtain ⟨m, mk, h1, h2⟩ := ih hrest
      exact ⟨m, mk, ⟨hc, nx, hk, h1⟩, h2⟩

theorem dseg_append_join {ls : List Entry} :
    ∀ {A B : List (Nat × State)} {p c m mk e lk},
      dseg ls A p c m mk → dseg ls B mk m e lk → dseg ls (A ++ B) p c e lk := by
  intro A
  induction A with
  | nil =>
      intro B p c m mk e lk hA hB
      obtain ⟨hc, hmk⟩ := hA
      rw [hmk] at hB
      rw [List.nil_append, hc]; exact hB
  | cons a rest ih =>
      obtain ⟨k, st⟩ := a
      intro B p c m mk e lk hA hB
      obtain ⟨hc, nx, hk, hrest⟩ := hA
      exact ⟨hc, nx, hk, ih hrest hB⟩

theorem dseg_mem {ls : List Entry} :
    ∀ {l : List (Nat × State)} {p c e lk}, dseg ls l p c e lk →
      ∀ pr ∈ l, ∃ p' nx, ls.get? pr.1 = some (.listener pr.2 p' nx) := by
  intro l
  induction l with
  | nil => intro p c e lk _ pr hpr; exact absurd hpr (List.not_mem_nil pr)
  | cons a rest ih =>
      obtain ⟨k, st⟩ := a
      intro p c e lk h pr hpr
      obtain ⟨hc, nx, hk, hrest⟩ := h
      rcases List.mem_cons.1 hpr with heq | hmem
      · subst heq; exact ⟨p, nx, hk⟩
      · exact ih hrest pr hmem

/-- Rewriting the `next` field of the last entry of a nonempty segment
retargets its exit pointer; nothing else about the segment changes. -/
theorem dseg_retarget_last {ls : List Entry} :
    ∀ {A : List (Nat × State)} {a : Nat} {sa : State} {p c e : Option Nat} {j : Nat},
      dseg ls ((a, sa) :: A) p c e (some j) →
      (((a, sa) :: A).map Prod.fst).Nodup →
      j ∈ ((a, sa) :: A).map Prod.fst ∧
        ∃ stj pj, ls.get? j = some (.listener stj pj e) ∧
          ∀ m', dseg (ls.set j (.listener stj pj m')) ((a, sa) :: A) p c m' (some j) := by
  intro A
  induction A with
  | nil =>
      intro a sa p c e j h _
      obtain ⟨hc, nx, hk, hnx, hj⟩ := h
      obtain rfl : j = a := by injection hj
      subst hnx
      refine ⟨by simp, sa, p, hk, fun m' => ⟨hc, m', ?_, rfl, rfl⟩⟩
      rw [List.get?_set_eq_of_lt _ (lt_of_get?_some hk)]
  | cons b A' ih =>
      obtain ⟨bk, sb⟩ := b
      intro a sa p c e j h hnd
      obtain ⟨hc, nx, hk, hrest⟩ := h
      rw [show (((a, sa) :: (bk, sb) :: A').map Prod.fst)
            = a :: (((bk, sb) :: A').map Prod.fst) from rfl,
        List.nodup_cons] at hnd
      obtain ⟨hjmem, stj, pj, hgj, hret⟩ := ih hrest hnd.2
      have haj : a ≠ j := fun heq => hnd.1 (heq ▸ hjmem)
      refine ⟨by simp only [List.map_cons, List.mem_cons] at hjmem ⊢; exact Or.inr hjmem,
        stj, pj, hgj, fun m' => ?_⟩
      exact ⟨hc, nx, by rw [List.get?_set_ne _ _ (fun hja => haj hja.symm)]; exact hk,
        hret m'⟩

/-- Rewriting the `prev` field of the first entry of a segment retargets its
predecessor pointer; nothing else about the segment changes. -/
theorem dseg_retarget_head {ls : List Entry} {B : List (Nat × State)}
    {b : Nat} {sb : State} {p c e lk : Option Nat}
    (h : dseg ls ((b, sb) :: B) p c e lk)
    (hb : b ∉ B.map Prod.fst) :
    ∃ nb, ls.get? b = some (.listener sb p nb) ∧ c = some b ∧
      ∀ p', dseg (ls.set b (.listener sb p' nb)) ((b, sb) :: B) p' (some b) e lk := by
  obtain ⟨hc, nb, hk, hrest⟩ := h
  refine ⟨nb, hk, hc, fun p' => ⟨rfl, nb, ?_, dseg_set_frame hb hrest⟩⟩
  rw [List.get?_set_eq_of_lt _ (lt_of_get?_some hk)]

theorem freeChain_mem {ls : List Entry} :
    ∀ {fl : List Nat} {cur}, freeChain ls cur fl →
      ∀ k ∈ fl, ∃ nx, ls.get? k = some (.empty nx) := by
  intro fl
  induction fl with
  | nil => intro cur _ k hk; exact absurd hk (List.not_mem_nil k)
  | cons a rest ih =>
      intro cur h k hk
      obtain ⟨hcur, nx, ha, hrest⟩ := h
      rcases List.mem_cons.1 hk with heq | hmem
      · subst heq; exact ⟨nx, ha⟩
      · exact ih hrest k hmem

theorem freeChain_frame {ls ls' : List Entry} (hlen : ls'.length = ls.length) :
    ∀ {fl : List Nat} {cur},
      (∀ k ∈ fl, ls'.get? k = ls.get? k) →
      freeChain ls cur fl → freeChain ls' cur fl := by
  intro fl
  induction fl with
  | nil => intro cur _ h; exact h.trans hlen.symm
  | cons a rest ih =>
      intro cur hfr h
      obtain ⟨hcur, nx, ha, hrest⟩ := h
      exact ⟨hcur, nx, by rw [hfr a (by simp)]; exact ha,
        ih (fun k hk => hfr k (by simp [hk])) hrest⟩

theorem freeChain_set_frame {ls : List Entry} {fl : List Nat} {cur}
    {k : Nat} {v : Entry} (hk : k ∉ fl) (h : freeChain ls cur fl) :
    freeChain (ls.set k v) cur fl :=
  freeChain_frame (ls.length_set k v) (fun j hj => List.get?_set_ne _ _ (fun hkj => hk (hkj ▸ hj))) h

theorem markN_keys (additional : Bool) (l : List (Nat × State)) :
    (markN additional l).map Prod.fst = l.map Prod.fst := by
  simp [markN]

/-- Running the notify loop over the unnotified segment `l2` of the chain: it
visits the first `n` entries of `l2` in order, marks each `Notified
additional`, advances `start` past them and bumps `notified` once per visit. -/
theorem notifyLoop_run (additional : Bool) :
    ∀ (n : Nat) (s : ListenerSlab) (l2 : List (Nat × State)) (pk : Option Nat),
      dseg s.listeners l2 pk s.start none s.tail →
      (l2.map Prod.fst).Nodup →
      ∃ s', notifyLoop additional n s = some (s', (l2.take n).map Prod.fst) ∧
        s'.head = s.head ∧ s'.tail = s.tail ∧ s'.len = s.len ∧
        s'.first_empty = s.first_empty ∧
        s'.notified = s.notified + min n l2.length ∧
        s'.start = entryPtr (l2.drop n) none ∧
        s'.listeners.length = s.listeners.length ∧
        (∀ j, j ∉ (l2.take n).map Prod.fst → s'.listeners.get? j = s.listeners.get? j) ∧
        dseg s'.listeners (markN additional (l2.take n) ++ l2.drop n)
          pk s.start none s.tail := by
  intro n
  induction n with
  | zero =>
      intro s l2 pk hseg hnd
      refine ⟨s, rfl, rfl, rfl, rfl, rfl, by simp, ?_, rfl, fun j _ => rfl, ?_⟩
      · simpa using dseg_entry hseg
      · simpa [markN] using hseg
  | succ n ih =>
      intro s l2 pk hseg hnd
      cases l2 with
      | nil =>
          obtain ⟨hstart, htail⟩ := hseg
          refine ⟨s, by simp [notifyLoop, hstart], rfl, rfl, rfl, rfl, by simp, ?_, rfl,
            fun j _ => rfl, ?_⟩
          · simpa using hstart
          · simpa [markN] using (⟨hstart, htail⟩ : dseg s.listeners [] pk s.start none s.tail)
      | cons hd rest =>
          obtain ⟨k, st⟩ := hd
          obtain ⟨hstart, nx, hk, hrest⟩ := hseg
          rw [List.map_cons, List.nodup_cons] at hnd
          have hrec := ih
            { s with
              listeners := s.listeners.set k (.listener (.notified additional) pk nx),
              start := nx, notified := s.notified + 1 }
            rest (some k) (dseg_set_frame hnd.1 hrest) hnd.2
          obtain ⟨s', heq, hh, ht, hl, hf, hn, hs, hlen, hfr, hdseg⟩ := hrec
          have hkset : (s.listeners.set k
              (Entry.listener (.notified additional) pk nx)).get? k
              = some (.listener (.notified additional) pk nx) :=
            List.get?_set_eq_of_lt _ (lt_of_get?_some hk)
          refine ⟨s', ?_, hh, ht, hl, hf, ?_, ?_, ?_, ?_, ?_⟩
          · simp only [notifyLoop, hstart, hk, heq, List.take_succ_cons, List.map_cons]
            rfl
          · rw [hn]
            simp only [List.length_cons, Nat.succ_min_succ]
            omega
          · rw [hs, List.drop_succ_cons]
          · rw [hlen]; exact s.listeners.length_set _ _
          · intro j hj
            rw [List.take_succ_cons, List.map_cons, List.mem_cons] at hj
            push_neg at hj
            rw [hfr j hj.2]
            exact List.get?_set_ne _ _ (fun hjk => hj.1 (hjk.symm ▸ rfl))
          · rw [List.take_succ_cons, List.drop_succ_cons]
            refine ⟨hstart, nx, ?_, hdseg⟩
            have hknotin : k ∉ (rest.take n).map Prod.fst :=
              fun hmem => hnd.1 (List.map_subset _ (List.take_subset _ _) hmem)
            rw [hfr k hknotin]
            exact hkset

/-- Frame property of the notify loop: it changes only `start`, `notified` and
the states of the entries it marks; all links and aggregate fields survive. -/
theorem notifyLoop_frame (additional : Bool) :
    ∀ (n : Nat) (s s' : ListenerSlab) (vis : List Nat),
      notifyLoop additional n s = some (s', vis) →
      s'.head = s.head ∧ s'.tail = s.tail ∧ s'.len = s.len ∧
      s'.first_empty = s.first_empty ∧
      s'.listeners.length = s.listeners.length ∧
      ∀ i, s'.listeners.get? i = s.listeners.get? i ∨
        ∃ st p nx, s.listeners.get? i = some (.listener st p nx) ∧
          s'.listeners.get? i = some (.listener (.notified additional) p nx) := by
  intro n
  induction n with
  | zero =>
      intro s s' vis h
      obtain ⟨rfl, rfl⟩ : s = s' ∧ vis = [] := by
        simpa [notifyLoop, eq_comm] using h
      exact ⟨rfl, rfl, rfl, rfl, rfl, fun i => Or.inl rfl⟩
  | succ n ih =>
      intro s s' vis h
      rcases hstart : s.start with _ | e
      · obtain ⟨rfl, rfl⟩ : s = s' ∧ vis = [] := by
          simpa [notifyLoop, hstart, eq_comm] using h
        exact ⟨rfl, rfl, rfl, rfl, rfl, fun i => Or.inl rfl⟩
      · rcases hget : s.listeners.get? e with _ | entry
        · simp only [notifyLoop, hstart, hget] at h
          exact Option.noConfusion h
        · rcases entry with ⟨st, p, nx⟩ | ⟨nxe⟩ | ⟨⟩
          · rcases hrec : notifyLoop additional n
                { s with
                  listeners := s.listeners.set e (.listener (.notified additional) p nx),
                  start := nx, notified := s.notified + 1 } with _ | pr
            · simp only [notifyLoop, hstart, hget, hrec] at h
              exact Option.noConfusion h
            · obtain ⟨s'', vis'⟩ := pr
              obtain ⟨rfl, rfl⟩ : s' = s'' ∧ vis = e :: vis' := by
                simp only [notifyLoop, hstart, hget, hrec] at h
                have h2 := Option.some.inj h
                exact ⟨(congrArg Prod.fst h2).symm, (congrArg Prod.snd h2).symm⟩
              obtain ⟨hh, ht, hl, hf, hlen, hent⟩ := ih _ _ _ hrec
              have helt : e < s.listeners.length := lt_of_get?_some hget
              refine ⟨hh, ht, hl, hf, hlen.trans (s.listeners.length_set _ _), fun i => ?_⟩
              by_cases hie : i = e
              · subst hie
                rcases hent i with h1 | ⟨st1, p1, nx1, ha, hb⟩
                · refine Or.inr ⟨st, p, nx, hget, ?_⟩
                  rw [h1]
                  exact List.get?_set_eq_of_lt _ helt
                · rw [List.get?_set_eq_of_lt _ helt] at ha
                  obtain ⟨hst1, hp1, hnx1⟩ : State.notified additional = st1 ∧ p = p1 ∧ nx = nx1 := by
                    have := Option.some.inj ha
                    exact ⟨by injection this, by injection this, by injection this⟩
                  exact Or.inr ⟨st, p, nx, hget, by rw [hb, ← hp1, ← hnx1]⟩
              · rcases hent i with h1 | ⟨st1, p1, nx1, ha, hb⟩
                · exact Or.inl (h1.trans (List.get?_set_ne _ _ (fun hei => hie hei.symm)))
                · rw [List.get?_set_ne _ _ (fun hei => hie hei.symm)] at ha
                  exact Or.inr ⟨st1, p1, nx1, ha, hb⟩
          · simp only [notifyLoop, hstart, hget] at h
            exact Option.noConfusion h
          · simp only [notifyLoop, hstart, hget] at h
            exact Option.noConfusion h

theorem WF.zero_not_key {s l1 l2 fl} (h : WF s l1 l2 fl) :
    0 ∉ (l1 ++ l2).map Prod.fst := by
  intro hk
  obtain ⟨pr, hpr, h0⟩ := List.mem_map.1 hk
  obtain ⟨p', nx, hg⟩ := dseg_mem h.chain pr hpr
  rw [h0] at hg
  rw [h.sentinel0] at hg
  exact Entry.noConfusion (Option.some.inj hg)

theorem WF.fl_disjoint_keys {s l1 l2 fl} (h : WF s l1 l2 fl) :
    ∀ k ∈ fl, k ∉ (l1 ++ l2).map Prod.fst := by
  intro k hkfl hkeys
  obtain ⟨pr, hpr, h0⟩ := List.mem_map.1 hkeys
  obtain ⟨p', nx, hg⟩ := dseg_mem h.chain pr hpr
  obtain ⟨nx2, hg2⟩ := freeChain_mem h.free k hkfl
  rw [h0] at hg
  rw [hg] at hg2
  exact Entry.noConfusion (Option.some.inj hg2)

theorem WF.mem_of_listener {s l1 l2 fl} (h : WF s l1 l2 fl) {k st p nx}
    (hk : s.listeners.get? k = some (.listener st p nx)) :
    k ∈ (l1 ++ l2).map Prod.fst := by
  rcases h.cover k (lt_of_get?_some hk) with h0 | hmem | hfl
  · subst h0
    rw [h.sentinel0] at hk
    exact Entry.noConfusion (Option.some.inj hk)
  · exact hmem
  · obtain ⟨nx2, hg2⟩ := freeChain_mem h.free k hfl
    rw [hk] at hg2
    exact Entry.noConfusion (Option.some.inj hg2)

theorem WF.l2_nodup {s l1 l2 fl} (h : WF s l1 l2 fl) : (l2.map Prod.fst).Nodup := by
  have hn := h.nodup
  rw [List.map_append, List.nodup_append] at hn
  exact hn.2.1

theorem WF.l1_l2_disjoint {s l1 l2 fl} (h : WF s l1 l2 fl) :
    ∀ k ∈ l1.map Prod.fst, k ∉ l2.map Prod.fst := by
  have hn := h.nodup
  rw [List.map_append, List.nodup_append] at hn
  exact fun k hk => hn.2.2 hk

/-- If `start = none` the notify loop does nothing regardless of the budget. -/
theorem notifyLoop_start_none {additional : Bool} {m : Nat} {s : ListenerSlab}
    (h : s.start = none) : notifyLoop additional m s = some (s, []) := by
  cases m <;> simp [notifyLoop, h]

/-- The notify loop, specified against a well-formed slab: it marks the first
`eff` unnotified listeners and preserves well-formedness. -/
theorem notifyLoop_wf {s : ListenerSlab} {l1 l2 : List (Nat × State)} {fl : List Nat}
    (h : WF s l1 l2 fl) (additional : Bool) (eff : Nat) :
    ∃ s', notifyLoop additional eff s = some (s', (l2.take eff).map Prod.fst) ∧
      WF s' (l1 ++ markN additional (l2.take eff)) (l2.drop eff) fl ∧
      s'.notified = s.notified + min eff l2.length ∧ s'.len = s.len ∧
      s'.head = s.head ∧ s'.tail = s.tail ∧ s'.first_empty = s.first_empty ∧
      s'.listeners.length = s.listeners.length := by
  obtain ⟨m, mk, hA, hB⟩ := dseg_append_split h.chain
  have hm : m = s.start := by rw [h.start_eq, dseg_entry hB]
  rw [hm] at hA hB
  have htake_sub : (l2.take eff).map Prod.fst ⊆ l2.map Prod.fst :=
    List.map_subset _ (List.take_subset _ _)
  obtain ⟨s', heq, hh, ht, hl, hf, hn, hs, hlen, hfr, hdseg⟩ :=
    notifyLoop_run additional eff s l2 mk hB h.l2_nodup
  have hkeys : ((l1 ++ markN additional (l2.take eff)) ++ l2.drop eff).map Prod.fst
      = (l1 ++ l2).map Prod.fst := by
    simp only [List.map_append, markN_keys, List.append_assoc]
    rw [← List.map_append Prod.fst (l2.take eff), List.take_append_drop]
  have hsubl2 : ∀ k, k ∈ l2.map Prod.fst → k ∈ (l1 ++ l2).map Prod.fst := by
    intro k hk
    rw [List.map_append]
    exact List.mem_append_right _ hk
  refine ⟨s', heq, ?_, by rw [hn], hl, hh, ht, hf, hlen⟩
  constructor
  case chain =>
    rw [List.append_assoc, hh, ht]
    refine dseg_append_join (dseg_frame ?_ hA) hdseg
    intro k hk
    exact hfr k (fun hmem => h.l1_l2_disjoint k hk (htake_sub hmem))
  case start_eq => exact hs
  case l1_notified =>
    intro pr hpr
    rcases List.mem_append.1 hpr with hl1 | hmark
    · exact h.l1_notified pr hl1
    · obtain ⟨q, _, hq⟩ := List.mem_map.1 hmark
      rw [← hq]
      rfl
  case l2_unnotified =>
    exact fun pr hpr => h.l2_unnotified pr (List.drop_subset _ _ hpr)
  case len_eq =>
    rw [hl, h.len_eq]
    simp only [List.length_append, markN, List.length_map, List.length_take,
      List.length_drop]
    omega
  case notified_eq =>
    rw [hn, h.notified_eq]
    simp only [List.length_append, markN, List.length_map, List.length_take]
  case nodup =>
    rw [hkeys]
    exact h.nodup
  case sentinel0 =>
    rw [hfr 0 (fun hmem => h.zero_not_key (hsubl2 0 (htake_sub hmem)))]
    exact h.sentinel0
  case free =>
    rw [hf]
    refine freeChain_frame hlen ?_ h.free
    intro k hk
    exact hfr k (fun hmem => h.fl_disjoint_keys k hk (hsubl2 k (htake_sub hmem)))
  case fl_nodup => exact h.fl_nodup
  case cover =>
    intro i hi
    rw [hlen] at hi
    rw [hkeys]
    exact h.cover i hi

/-- `ListenerSlab::notify`, specified against a well-formed slab. The number
of entries actually marked is `n` when `additional`, and otherwise
`n - notified` (so zero, an immediate return, when `n ≤ notified`). -/
theorem notify_wf {s : ListenerSlab} {l1 l2 : List (Nat × State)} {fl : List Nat}
    (h : WF s l1 l2 fl) (n : Nat) (additional : Bool) (eff : Nat)
    (heff : eff = if additional then n else n - s.notified) :
    ∃ s', s.notify n additional = some (s', (l2.take eff).map Prod.fst) ∧
      WF s' (l1 ++ markN additional (l2.take eff)) (l2.drop eff) fl ∧
      s'.notified = s.notified + min eff l2.length ∧ s'.len = s.len ∧
      s'.head = s.head ∧ s'.tail = s.tail ∧ s'.first_empty = s.first_empty ∧
      s'.listeners.length = s.listeners.length := by
  cases additional
  case true =>
    rw [if_pos rfl] at heff
    subst heff
    obtain ⟨s', heq, hrest⟩ := notifyLoop_wf h true eff
    refine ⟨s', ?_, hrest⟩
    rw [ListenerSlab.notify, if_pos rfl]
    exact heq
  case false =>
    rw [if_neg (by simp)] at heff
    subst heff
    by_cases hc : n ≤ s.notified
    · obtain ⟨s', heq, hrest⟩ := notifyLoop_wf h false (n - s.notified)
      refine ⟨s', ?_, hrest⟩
      rw [ListenerSlab.notify, if_neg (by simp), if_pos hc]
      rw [Nat.sub_eq_zero_of_le hc] at heq ⊢
      exact heq
    · obtain ⟨s', heq, hrest⟩ := notifyLoop_wf h false (n - s.notified)
      refine ⟨s', ?_, hrest⟩
      rw [ListenerSlab.notify, if_neg (by simp), if_neg hc]
      exact heq

theorem lastPtr_cons :
    ∀ (xs : List (Nat × State)) (k0 : Nat) (st0 : State) (p : Option Nat),
      ∃ j, lastPtr ((k0, st0) :: xs) p = some j := by
  intro xs
  induction xs with
  | nil => intro k0 st0 p; exact ⟨k0, rfl⟩
  | cons b rest ih =>
      obtain ⟨bk, sb⟩ := b
      intro k0 st0 p
      exact ih bk sb (some k0)

/-- Appending a fresh listener entry `key` (already written into `ls0`, with
`prev = tail` and `next = none`) to the back of the chain: the Rust code's
`match mem::replace(&mut self.tail, Some(key))` step. -/
theorem chain_snoc {ls0 : List Entry} {l1 l2 : List (Nat × State)} {key : Nat}
    {st : State} {head tail : Option Nat}
    (hchain : dseg ls0 (l1 ++ l2) none head none tail)
    (hnd : ((l1 ++ l2).map Prod.fst).Nodup)
    (hkey : ls0.get? key = some (.listener st tail none))
    (hkey_notin : key ∉ (l1 ++ l2).map Prod.fst) :
    ∃ ls1 head1,
      (tail = none → ls1 = ls0 ∧ head1 = some key ∧ l1 ++ l2 = []) ∧
      (∀ t, tail = some t → setNextEntry ls0 t (some key) = some ls1 ∧ head1 = head) ∧
      dseg ls1 ((l1 ++ l2) ++ [(key, st)]) none head1 none (some key) ∧
      ls1.length = ls0.length ∧
      (∀ j, j ∉ (l1 ++ l2).map Prod.fst → ls1.get? j = ls0.get? j) := by
  cases htail : tail with
  | none =>
      subst htail
      have hnil : l1 ++ l2 = [] := by
        cases hcomb : l1 ++ l2 with
        | nil => rfl
        | cons hd rest =>
            obtain ⟨k0, st0⟩ := hd
            rw [hcomb] at hchain
            obtain ⟨j, hj⟩ := lastPtr_cons rest k0 st0 (none : Option Nat)
            rw [← dseg_last hchain] at hj
            exact Option.noConfusion hj
      refine ⟨ls0, some key, fun _ => ⟨rfl, rfl, hnil⟩,
        fun t ht => Option.noConfusion ht, ?_, rfl, fun j _ => rfl⟩
      rw [hnil, List.nil_append]
      exact ⟨rfl, none, hkey, rfl, rfl⟩
  | some t =>
      subst htail
      cases hcomb : l1 ++ l2 with
      | nil =>
          rw [hcomb] at hchain
          obtain ⟨hh, hth⟩ := hchain
          exact Option.noConfusion hth
      | cons hd rest =>
          obtain ⟨k0, st0⟩ := hd
          rw [hcomb] at hchain hnd hkey_notin
          obtain ⟨hjmem, stj, pj, hgj, hret⟩ := dseg_retarget_last hchain hnd
          have hkt : key ≠ t := fun hkeq => hkey_notin (hkeq ▸ hjmem)
          refine ⟨ls0.set t (.listener stj pj (some key)), head, fun hno => Option.noConfusion hno,
            fun t2 ht2 => ?_, ?_, ls0.length_set _ _, fun j hj => ?_⟩
          · obtain rfl : t2 = t := by injection ht2 with h2; exact h2.symm
            constructor
            · rw [setNextEntry, hgj]
            · rfl
          · refine dseg_append_join (hret (some key)) ⟨rfl, none, ?_, rfl, rfl⟩
            rw [List.get?_set_ne _ _ (fun htk => hkt htk.symm)]
            exact hkey
          · exact List.get?_set_ne _ _ (fun htj => hj (htj ▸ hjmem))

/-- `ListenerSlab::insert Created`, specified against a well-formed slab: it
returns `first_empty` as the key, appends the new listener at the back of the
list, and pops the head of the free list. -/
theorem get?_concat_ne {ls : List Entry} {e : Entry} {j : Nat}
    (hj : j ≠ ls.length) : (ls ++ [e]).get? j = ls.get? j := by
  rcases Nat.lt_or_ge j ls.length with hlt | hge
  · exact List.get?_append hlt
  · have hgt : ls.length < j := lt_of_le_of_ne hge (fun hh => hj hh.symm)
    rw [List.get?_eq_none.2 (by simp; omega), List.get?_eq_none.2 (by omega)]

theorem insert_wf {s : ListenerSlab} {l1 l2 : List (Nat × State)} {fl : List Nat}
    (h : WF s l1 l2 fl) :
    ∃ s', s.insert .created = some (s.first_empty, s') ∧
      WF s' l1 (l2 ++ [(s.first_empty, .created)]) fl.tail ∧
      s'.len = s.len + 1 ∧ s'.notified = s.notified := by
  have hkeymap : ∀ st0 : State,
      (l1 ++ (l2 ++ [(s.first_empty, st0)])).map Prod.fst
        = (l1 ++ l2).map Prod.fst ++ [s.first_empty] := by
    intro st0
    rw [← List.append_assoc, List.map_append]
    rfl
  have hstart_if : ∀ st0 : State,
      (if s.start = none then some s.first_empty else s.start)
        = entryPtr (l2 ++ [(s.first_empty, st0)]) none := by
    intro st0
    cases hl2 : l2 with
    | nil =>
        rw [if_pos (by rw [h.start_eq, hl2]; rfl)]
        rfl
    | cons hd rest =>
        obtain ⟨k2, st2⟩ := hd
        rw [if_neg (by rw [h.start_eq, hl2]; exact fun hx => Option.noConfusion hx)]
        rw [h.start_eq, hl2]
        rfl
  by_cases hfe : s.first_empty = s.listeners.length
  · -- push branch: no empty entries, the free list is empty
    have hfl : fl = [] := by
      cases hflc : fl with
      | nil => rfl
      | cons a rest =>
          have hfree := h.free
          rw [hflc] at hfree
          obtain ⟨hcur, nx, hget, _⟩ := hfree
          have hlt := lt_of_get?_some hget
          rw [← hcur, hfe] at hlt
          exact absurd hlt (lt_irrefl _)
    have hkey0 : (s.listeners ++ [Entry.listener .created s.tail none]).get? s.first_empty
        = some (.listener .created s.tail none) := by
      rw [hfe]
      exact List.get?_concat_length _ _
    have hkey_notin : s.first_empty ∉ (l1 ++ l2).map Prod.fst := by
      intro hmem
      obtain ⟨pr, hpr, hpr1⟩ := List.mem_map.1 hmem
      obtain ⟨p', nx, hg⟩ := dseg_mem h.chain pr hpr
      have := lt_of_get?_some hg
      rw [hpr1, hfe] at this
      exact absurd this (lt_irrefl _)
    have hframe0 : ∀ k ∈ (l1 ++ l2).map Prod.fst,
        (s.listeners ++ [Entry.listener .created s.tail none]).get? k
          = s.listeners.get? k := by
      intro k hk
      exact get?_concat_ne (fun hkl => hkey_notin ((hfe.trans hkl.symm) ▸ hk))
    obtain ⟨ls1, head1, hnone, hsome, hdseg, hlen1, hfr1⟩ :=
      chain_snoc (dseg_frame hframe0 h.chain) h.nodup hkey0 hkey_notin
    have hlen1' : ls1.length = s.listeners.length + 1 := by
      rw [hlen1, List.length_append, List.length_cons, List.length_nil]
    have h0lt : (0 : Nat) < s.listeners.length := lt_of_get?_some h.sentinel0
    have hfrout : ∀ j, j ∉ (l1 ++ l2).map Prod.fst → j ≠ s.first_empty →
        ls1.get? j = s.listeners.get? j := by
      intro j hj hjk
      rw [hfr1 j hj]
      exact get?_concat_ne (fun hjl => hjk (hjl.trans hfe.symm))
    refine ⟨{ listeners := ls1, head := head1, tail := some s.first_empty,
              start := if s.start = none then some s.first_empty else s.start,
              notified := s.notified, len := s.len + 1,
              first_empty := s.listeners.length + 1 }, ?_, ?_, rfl, rfl⟩
    · -- the execution
      cases htail : s.tail with
      | none =>
          obtain ⟨hls1, hhead1, hcombnil⟩ := hnone htail
          subst hls1
          subst hhead1
          by_cases hstart : s.start = none <;>
            simp [ListenerSlab.insert, hfe, htail, hstart]
      | some t =>
          obtain ⟨hst, hhead1⟩ := hsome t htail
          subst hhead1
          rw [htail, hfe] at hst
          by_cases hstart : s.start = none <;>
            simp [ListenerSlab.insert, hfe, htail, hst, hstart]
    · refine ⟨?_, ?_, ?_, ?_, ?_, ?_, ?_, ?_, ?_, ?_, ?_⟩
      · -- chain
        rw [← List.append_assoc]
        exact hdseg
      · exact hstart_if .created  -- start_eq
      · exact h.l1_notified  -- l1_notified
      · -- l2_unnotified
        intro pr hpr
        rcases List.mem_append.1 hpr with hin | hin
        · exact h.l2_unnotified pr hin
        · rw [List.mem_singleton.1 hin]
          rfl
      · -- len_eq
        rw [h.len_eq]
        simp only [List.length_append, List.length_cons, List.length_nil]
        omega
      · exact h.notified_eq  -- notified_eq
      · -- nodup
        rw [hkeymap]
        refine List.nodup_append.2 ⟨h.nodup, List.nodup_singleton _, ?_⟩
        intro a ha hb
        rw [List.mem_singleton.1 hb] at ha
        exact hkey_notin ha
      · -- sentinel0
        rw [hfrout 0 h.zero_not_key (fun h0 => by rw [← h0] at hfe; omega)]
        exact h.sentinel0
      · -- free
        rw [hfl]
        show freeChain ls1 (s.listeners.length + 1) []
        rw [freeChain, hlen1']
      · -- fl_nodup
        rw [hfl]
        exact List.nodup_nil
      · -- cover
        intro i hi
        rw [hlen1'] at hi
        rw [hkeymap]
        rcases Nat.lt_or_ge i s.listeners.length with hlt | hge
        · rcases h.cover i hlt with h0 | hmem | hflm
          · exact Or.inl h0
          · exact Or.inr (Or.inl (List.mem_append_left _ hmem))
          · rw [hfl] at hflm
            exact absurd hflm (List.not_mem_nil i)
        · have : i = s.first_empty := by omega
          exact Or.inr (Or.inl (List.mem_append_right _ (by rw [this]; exact List.mem_singleton_self _)))
  · -- reuse branch: the free list starts at `first_empty`
    obtain ⟨fl', nx0, hflc, hget, hfl'⟩ :
        ∃ fl' nx0, fl = s.first_empty :: fl' ∧
          s.listeners.get? s.first_empty = some (.empty nx0) ∧
          freeChain s.listeners nx0 fl' := by
      cases hflc : fl with
      | nil =>
          have hfree := h.free
          rw [hflc] at hfree
          exact absurd hfree hfe
      | cons a rest =>
          have hfree := h.free
          rw [hflc] at hfree
          obtain ⟨hcur, nx, hget, hrest⟩ := hfree
          exact ⟨rest, nx, by rw [hcur], by rw [hcur]; exact hget, hrest⟩
    have hkeylt : s.first_empty < s.listeners.length := lt_of_get?_some hget
    have hkey_notin : s.first_empty ∉ (l1 ++ l2).map Prod.fst :=
      h.fl_disjoint_keys s.first_empty (by rw [hflc]; exact List.mem_cons_self _ _)
    have hkey0 : (s.listeners.set s.first_empty
          (Entry.listener .created s.tail none)).get? s.first_empty
        = some (.listener .created s.tail none) :=
      List.get?_set_eq_of_lt _ hkeylt
    obtain ⟨ls1, head1, hnone, hsome, hdseg, hlen1, hfr1⟩ :=
      chain_snoc (dseg_set_frame hkey_notin h.chain) h.nodup hkey0 hkey_notin
    have hlen1' : ls1.length = s.listeners.length := by
      rw [hlen1]
      exact s.listeners.length_set _ _
    have hfrout : ∀ j, j ∉ (l1 ++ l2).map Prod.fst → j ≠ s.first_empty →
        ls1.get? j = s.listeners.get? j := by
      intro j hj hjk
      rw [hfr1 j hj]
      exact List.get?_set_ne _ _ (fun hh => hjk hh.symm)
    have hkey_nz : s.first_empty ≠ 0 := by
      intro h0
      rw [h0] at hget
      rw [h.sentinel0] at hget
      exact Entry.noConfusion (Option.some.inj hget)
    refine ⟨{ listeners := ls1, head := head1, tail := some s.first_empty,
              start := if s.start = none then some s.first_empty else s.start,
              notified := s.notified, len := s.len + 1,
              first_empty := nx0 }, ?_, ?_, rfl, rfl⟩
    · have hget' : s.listeners[s.first_empty]? = some (Entry.empty nx0) := by
        rw [← List.get?_eq_getElem?]
        exact hget
      cases htail : s.tail with
      | none =>
          obtain ⟨hls1, hhead1, hcombnil⟩ := hnone htail
          subst hls1
          subst hhead1
          by_cases hstart : s.start = none <;>
            simp [ListenerSlab.insert, hfe, hget', htail, hstart]
      | some t =>
          obtain ⟨hst, hhead1⟩ := hsome t htail
          subst hhead1
          rw [htail] at hst
          by_cases hstart : s.start = none <;>
            simp [ListenerSlab.insert, hfe, hget', htail, hst, hstart]
    · refine ⟨?_, ?_, ?_, ?_, ?_, ?_, ?_, ?_, ?_, ?_, ?_⟩
      · -- chain
        rw [← List.append_assoc]
        exact hdseg
      · exact hstart_if .created  -- start_eq
      · exact h.l1_notified  -- l1_notified
      · -- l2_unnotified
        intro pr hpr
        rcases List.mem_append.1 hpr with hin | hin
        · exact h.l2_unnotified pr hin
        · rw [List.mem_singleton.1 hin]
          rfl
      · -- len_eq
        rw [h.len_eq]
        simp only [List.length_append, List.length_cons, List.length_nil]
        omega
      · exact h.notified_eq  -- notified_eq
      · -- nodup
        rw [hkeymap]
        refine List.nodup_append.2 ⟨h.nodup, List.nodup_singleton _, ?_⟩
        intro a ha hb
        rw [List.mem_singleton.1 hb] at ha
        exact hkey_notin ha
      · -- sentinel0
        rw [hfrout 0 h.zero_not_key (fun h0 => hkey_nz h0.symm)]
        exact h.sentinel0
      · -- free
        rw [hflc]
        show freeChain ls1 nx0 fl'
        have hnd := h.fl_nodup
        rw [hflc, List.nodup_cons] at hnd
        refine freeChain_frame hlen1' ?_ hfl'
        intro k hk
        exact hfrout k
          (h.fl_disjoint_keys k (by rw [hflc]; exact List.mem_cons_of_mem _ hk))
          (fun hh => hnd.1 (hh ▸ hk))
      · -- fl_nodup
        have hnd := h.fl_nodup
        rw [hflc, List.nodup_cons] at hnd
        rw [hflc]
        exact hnd.2
      · -- cover
        intro i hi
        rw [hlen1'] at hi
        rw [hkeymap, hflc]
        rcases h.cover i hi with h0 | hmem | hflm
        · exact Or.inl h0
        · exact Or.inr (Or.inl (List.mem_append_left _ hmem))
        · rw [hflc] at hflm
          rcases List.mem_cons.1 hflm with hik | hik
          · exact Or.inr (Or.inl (List.mem_append_right _ (by rw [hik]; exact List.mem_singleton_self _)))
          · exact Or.inr (Or.inr hik)

set_option maxHeartbeats 1000000 in
/-- Executing `ListenerSlab::remove` on a live key: the unlink writes splice
the entry out of the chain, the slot becomes the new head of the free list
(`Empty(first_empty)` and `first_empty := key`), and control passes to
`removeFinish` on the spliced slab. -/
theorem remove_run {s : ListenerSlab} {l1 l2 A B : List (Nat × State)}
    {fl : List Nat} {key : Nat} {st : State}
    (h : WF s l1 l2 fl) (hsplit : l1 ++ l2 = A ++ (key, st) :: B) (prop : Bool) :
    ∃ ls2,
      s.remove key prop = ListenerSlab.removeFinish
        { listeners := ls2,
          head := if A = [] then entryPtr B none else s.head,
          tail := if B = [] then lastPtr A none else s.tail,
          start := if s.start = some key then entryPtr B none else s.start,
          notified := s.notified, len := s.len, first_empty := key } st prop ∧
      dseg ls2 (A ++ B) none (if A = [] then entryPtr B none else s.head) none
        (if B = [] then lastPtr A none else s.tail) ∧
      (∀ j, j ∉ (A ++ (key, st) :: B).map Prod.fst → ls2.get? j = s.listeners.get? j) ∧
      ls2.get? key = some (.empty s.first_empty) ∧
      ls2.length = s.listeners.length := by
  have hchain := h.chain
  rw [hsplit] at hchain
  have hnd := h.nodup
  rw [hsplit] at hnd
  have hnd' := hnd
  rw [List.map_append, List.map_cons, List.nodup_append] at hnd'
  obtain ⟨hndA, hndKB, hdisj⟩ := hnd'
  rw [List.nodup_cons] at hndKB
  obtain ⟨hkeyB, hndB⟩ := hndKB
  have hkeyA : key ∉ A.map Prod.fst := fun hm => hdisj hm (List.mem_cons_self _ _)
  have hAdisjB : ∀ j ∈ A.map Prod.fst, j ∉ B.map Prod.fst :=
    fun j hj hjB => hdisj hj (List.mem_cons_of_mem _ hjB)
  obtain ⟨m, mk, hA, hKB⟩ := dseg_append_split hchain
  obtain ⟨hm, nx, hk, hB⟩ := hKB
  subst hm
  have hmk : mk = lastPtr A none := dseg_last hA
  have hnx : nx = entryPtr B none := dseg_entry hB
  have hklt : key < s.listeners.length := lt_of_get?_some hk
  cases A with
  | nil =>
      obtain ⟨hhead, hmk0⟩ := hA
      subst hmk0
      cases B with
      | nil =>
          obtain ⟨hnx0, htail⟩ := hB
          subst hnx0
          have hk' : s.listeners[key]? = some (Entry.listener st none none) := by
            rw [← List.get?_eq_getElem?]
            exact hk
          refine ⟨s.listeners.set key (.empty s.first_empty), ?_, ?_, ?_, ?_,
            s.listeners.length_set _ _⟩
          · by_cases hstart : s.start = some key
            · simp only [ListenerSlab.remove, hk, Option.bind_eq_bind, Option.some_bind,
                Entry.prevOf, Entry.nextOf, Entry.stateOf, if_pos hstart, if_pos rfl,
                entryPtr, lastPtr, eq_self_iff_true, if_true]
            · simp only [ListenerSlab.remove, hk, Option.bind_eq_bind, Option.some_bind,
                Entry.prevOf, Entry.nextOf, Entry.stateOf, if_neg hstart, if_pos rfl,
                entryPtr, lastPtr, eq_self_iff_true, if_true]
          · exact ⟨by simp [entryPtr], by simp [lastPtr]⟩
          · intro j hj
            simp only [List.nil_append, List.map_cons, List.map_nil, List.mem_cons,
              List.not_mem_nil, or_false] at hj
            exact List.get?_set_ne _ _ (fun hh => hj hh.symm)
          · exact List.get?_set_eq_of_lt _ hklt
      | cons hb B' =>
          obtain ⟨bk, sb⟩ := hb
          obtain rfl : nx = some bk := hnx
          rw [List.map_cons, List.nodup_cons] at hndB
          obtain ⟨hbkB', hndB'⟩ := hndB
          have hkbk : key ≠ bk := fun hh => hkeyB (by rw [hh, List.map_cons]; exact List.mem_cons_self _ _)
          obtain ⟨nb, hgb, hcB, hretB⟩ := dseg_retarget_head hB hbkB'
          have hbklt : bk < s.listeners.length := lt_of_get?_some hgb
          have hk' : s.listeners[key]? = some (Entry.listener st none (some bk)) := by
            rw [← List.get?_eq_getElem?]
            exact hk
          have hgb' : s.listeners[bk]? = some (Entry.listener sb (some key) nb) := by
            rw [← List.get?_eq_getElem?]
            exact hgb
          have hold : (s.listeners.set bk (Entry.listener sb none nb)).get? key
              = some (Entry.listener st none (some bk)) := by
            rw [List.get?_set_ne _ _ (fun hh => hkbk hh.symm)]
            exact hk
          refine ⟨(s.listeners.set bk (Entry.listener sb none nb)).set key
              (.empty s.first_empty), ?_, ?_, ?_, ?_, ?_⟩
          · by_cases hstart : s.start = some key
            · simp only [ListenerSlab.remove, hk, Option.bind_eq_bind, Option.some_bind,
                Entry.prevOf, Entry.nextOf, Entry.stateOf, setPrevEntry, hgb, hold,
                if_pos hstart, if_pos rfl, if_neg (List.cons_ne_nil (bk, sb) B'),
                entryPtr, lastPtr, eq_self_iff_true, if_true]
            · simp only [ListenerSlab.remove, hk, Option.bind_eq_bind, Option.some_bind,
                Entry.prevOf, Entry.nextOf, Entry.stateOf, setPrevEntry, hgb, hold,
                if_neg hstart, if_pos rfl, if_neg (List.cons_ne_nil (bk, sb) B'),
                entryPtr, lastPtr, eq_self_iff_true, if_true]
          · simp only [List.nil_append, entryPtr, if_pos rfl,
              if_neg (List.cons_ne_nil _ _)]
            exact dseg_set_frame (fun hm2 => hkeyB hm2) (hretB none)
          · intro j hj
            simp only [List.nil_append, List.map_cons, List.mem_cons] at hj
            push_neg at hj
            rw [List.get?_set_ne _ _ (fun hh => hj.1 hh.symm),
              List.get?_set_ne _ _ (fun hh => hj.2.1 hh.symm)]
          · rw [List.get?_set_eq_of_lt]
            rw [List.length_set]
            exact hklt
          · rw [List.length_set, List.length_set]
  | cons ha A' =>
      obtain ⟨ak, sa⟩ := ha
      obtain ⟨j, hj⟩ := lastPtr_cons A' ak sa none
      rw [hj] at hmk
      subst hmk
      obtain ⟨hjmem, stj, pj, hgp, hretA⟩ := dseg_retarget_last hA hndA
      have hjkey : j ≠ key := fun hh => hkeyA (hh ▸ hjmem)
      have hjlt : j < s.listeners.length := lt_of_get?_some hgp
      have hgp' : s.listeners[j]? = some (Entry.listener stj pj (some key)) := by
        rw [← List.get?_eq_getElem?]
        exact hgp
      cases B with
      | nil =>
          obtain ⟨hnx0, htail⟩ := hB
          subst hnx0
          have hk' : s.listeners[key]? = some (Entry.listener st (some j) none) := by
            rw [← List.get?_eq_getElem?]
            exact hk
          have hold : (s.listeners.set j (Entry.listener stj pj none)).get? key
              = some (Entry.listener st (some j) none) := by
            rw [List.get?_set_ne _ _ hjkey]
            exact hk
          refine ⟨(s.listeners.set j (Entry.listener stj pj none)).set key
              (.empty s.first_empty), ?_, ?_, ?_, ?_, ?_⟩
          · by_cases hstart : s.start = some key
            · simp only [ListenerSlab.remove, hk, Option.bind_eq_bind, Option.some_bind,
                Entry.prevOf, Entry.nextOf, Entry.stateOf, setNextEntry, hgp, hold,
                if_pos hstart, if_pos rfl, if_neg (List.cons_ne_nil (ak, sa) A'),
                entryPtr, hj, eq_self_iff_true, if_true]
            · simp only [ListenerSlab.remove, hk, Option.bind_eq_bind, Option.some_bind,
                Entry.prevOf, Entry.nextOf, Entry.stateOf, setNextEntry, hgp, hold,
                if_neg hstart, if_pos rfl, if_neg (List.cons_ne_nil (ak, sa) A'),
                entryPtr, hj, eq_self_iff_true, if_true]
          · rw [List.append_nil, if_neg (List.cons_ne_nil _ _), if_pos rfl, hj]
            exact dseg_set_frame hkeyA (hretA none)
          · intro j2 hj2
            rw [List.map_append, List.map_cons] at hj2
            have hj2A : j2 ∉ (((ak, sa) :: A').map Prod.fst) :=
              fun hm2 => hj2 (List.mem_append_left _ hm2)
            have hj2key : j2 ≠ key :=
              fun hm2 => hj2 (List.mem_append_right _ (by rw [hm2]; exact List.mem_cons_self _ _))
            rw [List.get?_set_ne _ _ (fun hh => hj2key hh.symm),
              List.get?_set_ne _ _ (fun hh => (hj2A (by rw [← hh]; exact hjmem)).elim)]
          · rw [List.get?_set_eq_of_lt]
            rw [List.length_set]
            exact hklt
          · rw [List.length_set, List.length_set]
      | cons hb B' =>
          obtain ⟨bk, sb⟩ := hb
          obtain rfl : nx = some bk := hnx
          rw [List.map_cons, List.nodup_cons] at hndB
          obtain ⟨hbkB', hndB'⟩ := hndB
          have hkbk : key ≠ bk := fun hh => hkeyB (by rw [hh, List.map_cons]; exact List.mem_cons_self _ _)
          have hbkA : bk ∉ ((ak, sa) :: A').map Prod.fst :=
            fun hm2 => hAdisjB bk hm2 (by rw [List.map_cons]; exact List.mem_cons_self _ _)
          have hjbk : j ≠ bk := fun hh => hbkA (hh ▸ hjmem)
          have hB1 : dseg (s.listeners.set j (Entry.listener stj pj (some bk)))
              ((bk, sb) :: B') (some key) (some bk) none s.tail := by
            refine dseg_set_frame ?_ hB
            intro hm2
            exact hAdisjB j hjmem hm2
          obtain ⟨nb, hgb1, hcB, hretB⟩ := dseg_retarget_head hB1 hbkB'
          have hAset2 : dseg ((s.listeners.set j (Entry.listener stj pj (some bk))).set bk
              (Entry.listener sb (some j) nb)) ((ak, sa) :: A') none s.head (some bk) (some j) :=
            dseg_set_frame hbkA (hretA (some bk))
          have hjoin := dseg_append_join hAset2 (hretB (some j))
          have hk' : s.listeners[key]? = some (Entry.listener st (some j) (some bk)) := by
            rw [← List.get?_eq_getElem?]
            exact hk
          have hgb1' : (s.listeners.set j (Entry.listener stj pj (some bk)))[bk]?
              = some (Entry.listener sb (some key) nb) := by
            rw [← List.get?_eq_getElem?]
            exact hgb1
          have hold : ((s.listeners.set j (Entry.listener stj pj (some bk))).set bk
              (Entry.listener sb (some j) nb)).get? key
              = some (Entry.listener st (some j) (some bk)) := by
            rw [List.get?_set_ne _ _ (fun hh => hkbk hh.symm),
              List.get?_set_ne _ _ hjkey]
            exact hk
          refine ⟨((s.listeners.set j (Entry.listener stj pj (some bk))).set bk
              (Entry.listener sb (some j) nb)).set key (.empty s.first_empty),
            ?_, ?_, ?_, ?_, ?_⟩
          · by_cases hstart : s.start = some key
            · simp only [ListenerSlab.remove, hk, Option.bind_eq_bind, Option.some_bind,
                Entry.prevOf, Entry.nextOf, Entry.stateOf, setNextEntry, setPrevEntry,
                hgp, hgb1, hold, if_pos hstart,
                if_neg (List.cons_ne_nil (ak, sa) A'), if_neg (List.cons_ne_nil (bk, sb) B'),
                entryPtr, eq_self_iff_true, if_true]
            · simp only [ListenerSlab.remove, hk, Option.bind_eq_bind, Option.some_bind,
                Entry.prevOf, Entry.nextOf, Entry.stateOf, setNextEntry, setPrevEntry,
                hgp, hgb1, hold, if_neg hstart,
                if_neg (List.cons_ne_nil (ak, sa) A'), if_neg (List.cons_ne_nil (bk, sb) B'),
                entryPtr, eq_self_iff_true, if_true]
          · rw [if_neg (List.cons_ne_nil _ _), if_neg (List.cons_ne_nil _ _)]
            refine dseg_set_frame ?_ hjoin
            intro hm2
            rw [List.map_append] at hm2
            rcases List.mem_append.1 hm2 with hm3 | hm3
            · exact hkeyA hm3
            · exact hkeyB hm3
          · intro j2 hj2
            rw [List.map_append, List.map_cons] at hj2
            have hj2A : j2 ∉ (((ak, sa) :: A').map Prod.fst) :=
              fun hm2 => hj2 (List.mem_append_left _ hm2)
            have hj2key : j2 ≠ key :=
              fun hm2 => hj2 (List.mem_append_right _ (by rw [hm2]; exact List.mem_cons_self _ _))
            have hj2B : j2 ∉ (((bk, sb) :: B').map Prod.fst) :=
              fun hm2 => hj2 (List.mem_append_right _ (List.mem_cons_of_mem _ hm2))
            have hj2bk : j2 ≠ bk :=
              fun hm2 => hj2B (by rw [hm2, List.map_cons]; exact List.mem_cons_self _ _)
            rw [List.get?_set_ne _ _ (fun hh => hj2key hh.symm),
              List.get?_set_ne _ _ (fun hh => hj2bk hh.symm),
              List.get?_set_ne _ _ (fun hh => (hj2A (by rw [← hh]; exact hjmem)).elim)]
          · rw [List.get?_set_eq_of_lt]
            rw [List.length_set, List.length_set]
            exact hklt
          · rw [List.length_set, List.length_set, List.length_set]

theorem removeFinish_eval_unnotified {s4 : ListenerSlab} {st : State} {prop : Bool}
    (hst : st.isNotified = false) :
    s4.removeFinish st prop = some (st, { s4 with len := s4.len - 1 }) := by
  simp [ListenerSlab.removeFinish, hst]

theorem removeFinish_eval_taken {s4 : ListenerSlab} {prop : Bool} :
    s4.removeFinish .notifiedTaken prop
      = some (.notifiedTaken, { s4 with notified := s4.notified - 1, len := s4.len - 1 }) := by
  cases prop <;> rfl

theorem removeFinish_eval_noprop {s4 : ListenerSlab} {st : State}
    (hst : st.isNotified = true) :
    s4.removeFinish st false
      = some (st, { s4 with notified := s4.notified - 1, len := s4.len - 1 }) := by
  simp [ListenerSlab.removeFinish, hst]

theorem removeFinish_eval_clamped {s4 : ListenerSlab}
    (hn : 1 ≤ s4.notified - 1) :
    s4.removeFinish (.notified false) true
      = some (.notified false, { s4 with notified := s4.notified - 1, len := s4.len - 1 }) := by
  simp [ListenerSlab.removeFinish, State.isNotified, ListenerSlab.notify, hn]

theorem removeFinish_eval_prop {s4 : ListenerSlab} {a : Bool} :
    s4.removeFinish (.notified a) true
      = (ListenerSlab.notify { s4 with notified := s4.notified - 1 } 1 a).bind
          (fun pr => some (.notified a, { pr.1 with len := pr.1.len - 1 })) := by
  rcases hx : ListenerSlab.notify { s4 with notified := s4.notified - 1 } 1 a with _ | pr
  · simp [ListenerSlab.removeFinish, State.isNotified, hx]
  · simp [ListenerSlab.removeFinish, State.isNotified, hx]

/-- The notify loop never reads `len`; the field is just carried through. -/
theorem notifyLoop_len_irrel (additional : Bool) :
    ∀ (n : Nat) (ls : List Entry) (hd tl st : Option Nat) (ntf len1 len2 fe : Nat),
      notifyLoop additional n ⟨ls, hd, tl, st, ntf, len1, fe⟩
        = (notifyLoop additional n ⟨ls, hd, tl, st, ntf, len2, fe⟩).map
            (fun pr => ({ pr.1 with len := len1 }, pr.2)) := by
  intro n
  induction n with
  | zero => intro ls hd tl st ntf len1 len2 fe; rfl
  | succ n ih =>
      intro ls hd tl st ntf len1 len2 fe
      rcases st with _ | e
      · rfl
      · rcases hget : ls.get? e with _ | entry
        · simp only [notifyLoop, hget]
          rfl
        · rcases entry with ⟨st2, p, nx⟩ | ⟨nxe⟩ | ⟨⟩
          · simp only [notifyLoop, hget]
            rw [ih (ls.set e (.listener (.notified additional) p nx)) hd tl nx
              (ntf + 1) len1 len2 fe]
            rcases hrec : notifyLoop additional n
                ⟨ls.set e (.listener (.notified additional) p nx), hd, tl, nx,
                  ntf + 1, len2, fe⟩ with _ | pr <;> rfl
          · simp only [notifyLoop, hget]
            rfl
          · simp only [notifyLoop, hget]
            rfl

theorem notify_len_irrel (ls : List Entry) (hd tl st : Option Nat)
    (ntf len1 len2 fe : Nat) (n : Nat) (additional : Bool) :
    ListenerSlab.notify ⟨ls, hd, tl, st, ntf, len1, fe⟩ n additional
      = (ListenerSlab.notify ⟨ls, hd, tl, st, ntf, len2, fe⟩ n additional).map
          (fun pr => ({ pr.1 with len := len1 }, pr.2)) := by
  cases additional
  · by_cases hc : n ≤ ntf
    · simp [ListenerSlab.notify, hc]
    · simp only [ListenerSlab.notify, Bool.false_eq_true, if_false, if_neg hc]
      exact notifyLoop_len_irrel false (n - ntf) ls hd tl st ntf len1 len2 fe
  · simp only [ListenerSlab.notify, if_pos rfl]
    exact notifyLoop_len_irrel true n ls hd tl st ntf len1 len2 fe

theorem mem_keys_split {i key : Nat} {st : State} {A B : List (Nat × State)} :
    i ∈ (A ++ (key, st) :: B).map Prod.fst ↔
      i = key ∨ i ∈ (A ++ B).map Prod.fst := by
  simp only [List.map_append, List.map_cons, List.mem_append, List.mem_cons]
  tauto

/-- Reassembling well-formedness after `remove` has spliced out `key`: the
surviving chain `A ++ B`, re-read as a notified prefix `l1'` and unnotified
suffix `l2'`, together with the freed slot pushed onto the free list. -/
theorem splice_wf {s : ListenerSlab} {l1 l2 A B l1' l2' : List (Nat × State)}
    {fl : List Nat} {key : Nat} {st : State} {ls2 : List Entry}
    {H T S : Option Nat} {N L : Nat}
    (h : WF s l1 l2 fl)
    (hsplit : l1 ++ l2 = A ++ (key, st) :: B)
    (hperm : A ++ B = l1' ++ l2')
    (hdseg : dseg ls2 (A ++ B) none H none T)
    (hframe : ∀ j, j ∉ (A ++ (key, st) :: B).map Prod.fst →
      ls2.get? j = s.listeners.get? j)
    (hkey : ls2.get? key = some (.empty s.first_empty))
    (hlen : ls2.length = s.listeners.length)
    (hl1' : ∀ pr ∈ l1', (Prod.snd pr).isNotified = true)
    (hl2' : ∀ pr ∈ l2', (Prod.snd pr).isNotified = false)
    (hS : S = entryPtr l2' none)
    (hN : N = l1'.length) (hL : L = l1'.length + l2'.length) :
    WF { listeners := ls2, head := H, tail := T, start := S, notified := N, len := L,
         first_empty := key } l1' l2' (key :: fl) := by
  have hsub : List.Sublist ((A ++ B).map Prod.fst)
      ((A ++ (key, st) :: B).map Prod.fst) :=
    ((List.sublist_cons_self (key, st) B).append_left A).map Prod.fst
  have hkeymem : key ∈ (l1 ++ l2).map Prod.fst := by
    rw [hsplit]
    exact mem_keys_split.2 (Or.inl rfl)
  have hframe' : ∀ j, j ∉ (l1 ++ l2).map Prod.fst → ls2.get? j = s.listeners.get? j := by
    intro j hj
    refine hframe j ?_
    rw [← hsplit]
    exact hj
  constructor
  · -- chain
    show dseg ls2 (l1' ++ l2') none H none T
    rw [← hperm]
    exact hdseg
  · exact hS
  · exact hl1'
  · exact hl2'
  · exact hL
  · exact hN
  · -- nodup
    show ((l1' ++ l2').map Prod.fst).Nodup
    rw [← hperm]
    have hnd := h.nodup
    rw [hsplit] at hnd
    exact hnd.sublist hsub
  · -- sentinel0
    show ls2.get? 0 = some Entry.sentinel
    rw [hframe' 0 h.zero_not_key]
    exact h.sentinel0
  · -- free
    show freeChain ls2 key (key :: fl)
    refine ⟨rfl, s.first_empty, hkey, ?_⟩
    refine freeChain_frame hlen ?_ h.free
    intro k hk
    exact hframe' k (h.fl_disjoint_keys k hk)
  · -- fl_nodup
    show (key :: fl).Nodup
    rw [List.nodup_cons]
    exact ⟨fun hk => h.fl_disjoint_keys key hk hkeymem, h.fl_nodup⟩
  · -- cover
    show ∀ i < ls2.length, i = 0 ∨ i ∈ (l1' ++ l2').map Prod.fst ∨ i ∈ key :: fl
    intro i hi
    rw [hlen] at hi
    rcases h.cover i hi with h0 | hmem | hflm
    · exact Or.inl h0
    · rw [hsplit] at hmem
      rcases mem_keys_split.1 hmem with hik | hmem2
      · exact Or.inr (Or.inr (by rw [hik]; exact List.mem_cons_self _ _))
      · rw [hperm] at hmem2
        exact Or.inr (Or.inl hmem2)
    · exact Or.inr (Or.inr (List.mem_cons_of_mem _ hflm))

theorem ListenerSlab.set_len_eta (t : ListenerSlab) : { t with len := t.len } = t := by
  cases t
  rfl

theorem start_ne_key_of_l1 {s : ListenerSlab} {l1 l2 : List (Nat × State)} {fl : List Nat}
    {key : Nat} (h : WF s l1 l2 fl) (hmem : key ∈ l1.map Prod.fst) :
    s.start ≠ some key := by
  rw [h.start_eq]
  cases hl2 : l2 with
  | nil => exact fun hx => Option.noConfusion hx
  | cons c rest =>
      obtain ⟨ck, stc⟩ := c
      intro hx
      have hck : ck = key := by injection hx
      refine h.l1_l2_disjoint key hmem ?_
      rw [hl2, ← hck]
      exact List.mem_cons_self _ _

/-- `ListenerSlab::remove` of an unnotified listener (any `propagate` flag):
the listener leaves the unnotified segment, the counters of everyone else are
untouched, and the slot joins the free list. -/
theorem remove_wf_l2 {s : ListenerSlab} {l1 B1 B2 : List (Nat × State)} {fl : List Nat}
    {key : Nat} {st : State}
    (h : WF s l1 (B1 ++ (key, st) :: B2) fl) (prop : Bool) :
    ∃ s', s.remove key prop = some (st, s') ∧ WF s' l1 (B1 ++ B2) (key :: fl) ∧
      s'.notified = s.notified ∧ s'.len + 1 = s.len ∧ s'.first_empty = key ∧
      s'.listeners.get? key = some (.empty s.first_empty) := by
  have hsplit : l1 ++ (B1 ++ (key, st) :: B2) = (l1 ++ B1) ++ (key, st) :: B2 :=
    (List.append_assoc _ _ _).symm
  obtain ⟨ls2, heq, hdseg, hframe, hkey, hlen⟩ := remove_run h hsplit prop
  have hstu : st.isNotified = false :=
    h.l2_unnotified (key, st) (List.mem_append_right _ (List.mem_cons_self _ _))
  rw [removeFinish_eval_unnotified hstu] at heq
  have hlen_eq := h.len_eq
  rw [List.length_append, List.length_cons] at hlen_eq
  have hS : (if s.start = some key then entryPtr B2 none else s.start)
      = entryPtr (B1 ++ B2) none := by
    cases hB1 : B1 with
    | nil =>
        rw [if_pos (by rw [h.start_eq, hB1]; rfl), List.nil_append]
    | cons c rest =>
        obtain ⟨ck, stc⟩ := c
        have hck : ck ≠ key := by
          intro hh
          have hnd := h.l2_nodup
          rw [hB1, hh] at hnd
          simp only [List.cons_append, List.map_cons, List.nodup_cons] at hnd
          exact hnd.1 (by
            rw [List.map_append, List.map_cons]
            exact List.mem_append_right _ (List.mem_cons_self _ _))
        rw [if_neg (by rw [h.start_eq, hB1]; intro hx; exact hck (by injection hx))]
        rw [h.start_eq, hB1]
        rfl
  refine ⟨_, heq, ?_, rfl, ?_, rfl, hkey⟩
  · refine splice_wf h hsplit (List.append_assoc _ _ _) hdseg hframe hkey hlen
      h.l1_notified ?_ hS h.notified_eq ?_
    · intro pr hpr
      refine h.l2_unnotified pr ?_
      rcases List.mem_append.1 hpr with hin | hin
      · exact List.mem_append_left _ hin
      · exact List.mem_append_right _ (List.mem_cons_of_mem _ hin)
    · show s.len - 1 = l1.length + (B1 ++ B2).length
      rw [List.length_append]
      omega
  · show s.len - 1 + 1 = s.len
    omega

/-- `ListenerSlab::remove` of a notified listener in the cases where the
propagated `notify(1, …)` does nothing: `propagate = false`, a `NotifiedTaken`
state (the `if let Notified` match fails), or a `Notified(false)` state while
other notified listeners remain (the clamp in `notify` returns immediately).
The `notified` counter drops by one even if unnotified listeners remain. -/
theorem remove_wf_l1_noprop {s : ListenerSlab} {A1 A2 l2 : List (Nat × State)}
    {fl : List Nat} {key : Nat} {st : State}
    (h : WF s (A1 ++ (key, st) :: A2) l2 fl) (prop : Bool)
    (hcase : prop = false ∨ st = .notifiedTaken ∨
      (st = .notified false ∧ prop = true ∧ A1 ++ A2 ≠ [])) :
    ∃ s', s.remove key prop = some (st, s') ∧ WF s' (A1 ++ A2) l2 (key :: fl) ∧
      s'.notified + 1 = s.notified ∧ s'.len + 1 = s.len ∧ s'.first_empty = key ∧
      s'.listeners.get? key = some (.empty s.first_empty) := by
  have hsplit : (A1 ++ (key, st) :: A2) ++ l2 = A1 ++ (key, st) :: (A2 ++ l2) := by
    rw [List.append_assoc]
    rfl
  obtain ⟨ls2, heq, hdseg, hframe, hkey, hlen⟩ := remove_run h hsplit prop
  have hstn : st.isNotified = true :=
    h.l1_notified (key, st) (List.mem_append_right _ (List.mem_cons_self _ _))
  have hnot_eq := h.notified_eq
  rw [List.length_append, List.length_cons] at hnot_eq
  have hlen_eq := h.len_eq
  rw [List.length_append, List.length_cons] at hlen_eq
  have heval : ListenerSlab.removeFinish
      { listeners := ls2,
        head := if A1 = [] then entryPtr (A2 ++ l2) none else s.head,
        tail := if A2 ++ l2 = [] then lastPtr A1 none else s.tail,
        start := if s.start = some key then entryPtr (A2 ++ l2) none else s.start,
        notified := s.notified, len := s.len, first_empty := key } st prop
      = some (st,
        { listeners := ls2,
          head := if A1 = [] then entryPtr (A2 ++ l2) none else s.head,
          tail := if A2 ++ l2 = [] then lastPtr A1 none else s.tail,
          start := if s.start = some key then entryPtr (A2 ++ l2) none else s.start,
          notified := s.notified - 1, len := s.len - 1, first_empty := key }) := by
    rcases hcase with hp | hst | ⟨hst, hp, hne⟩
    · subst hp
      exact removeFinish_eval_noprop hstn
    · subst hst
      exact removeFinish_eval_taken
    · subst hst
      subst hp
      refine removeFinish_eval_clamped ?_
      show 1 ≤ s.notified - 1
      have hpos : 0 < (A1 ++ A2).length := List.length_pos.2 hne
      rw [List.length_append] at hpos
      omega
  rw [heval] at heq
  have hS : (if s.start = some key then entryPtr (A2 ++ l2) none else s.start)
      = entryPtr l2 none := by
    rw [if_neg (start_ne_key_of_l1 h (by
      rw [List.map_append, List.map_cons]
      exact List.mem_append_right _ (List.mem_cons_self _ _)))]
    exact h.start_eq
  refine ⟨_, heq, ?_, ?_, ?_, rfl, hkey⟩
  · refine splice_wf h hsplit (List.append_assoc _ _ _).symm hdseg hframe hkey hlen
      ?_ h.l2_unnotified hS ?_ ?_
    · intro pr hpr
      refine h.l1_notified pr ?_
      rcases List.mem_append.1 hpr with hin | hin
      · exact List.mem_append_left _ hin
      · exact List.mem_append_right _ (List.mem_cons_of_mem _ hin)
    · show s.notified - 1 = (A1 ++ A2).length
      rw [List.length_append]
      omega
    · show s.len - 1 = (A1 ++ A2).length + l2.length
      rw [List.length_append]
      omega
  · show s.notified - 1 + 1 = s.notified
    omega
  · show s.len - 1 + 1 = s.len
    omega

/-- `ListenerSlab::remove` of a `Notified(a)` listener with `propagate = true`
in the cases where the propagated `notify(1, a)` really marks a successor:
always for `a = true`, and for `a = false` exactly when the removed listener
was the only notified one. The head of the unnotified segment (if any) becomes
`Notified(a)`. -/
theorem remove_wf_l1_renotify {s : ListenerSlab} {A1 A2 l2 : List (Nat × State)}
    {fl : List Nat} {key : Nat} {a : Bool}
    (h : WF s (A1 ++ (key, .notified a) :: A2) l2 fl)
    (hcase : a = true ∨ A1 ++ A2 = []) :
    ∃ s', s.remove key true = some (.notified a, s') ∧
      WF s' ((A1 ++ A2) ++ markN a (l2.take 1)) (l2.drop 1) (key :: fl) ∧
      s'.notified = (A1 ++ A2).length + min 1 l2.length ∧
      s'.len + 1 = s.len ∧ s'.first_empty = key := by
  have hsplit : (A1 ++ (key, .notified a) :: A2) ++ l2
      = A1 ++ (key, .notified a) :: (A2 ++ l2) := by
    rw [List.append_assoc]
    rfl
  obtain ⟨ls2, heq, hdseg, hframe, hkey, hlen⟩ := remove_run h hsplit true
  rw [removeFinish_eval_prop] at heq
  have hnot_eq := h.notified_eq
  rw [List.length_append, List.length_cons] at hnot_eq
  have hlen_eq := h.len_eq
  rw [List.length_append, List.length_cons] at hlen_eq
  have hS : (if s.start = some key then entryPtr (A2 ++ l2) none else s.start)
      = entryPtr l2 none := by
    rw [if_neg (start_ne_key_of_l1 h (by
      rw [List.map_append, List.map_cons]
      exact List.mem_append_right _ (List.mem_cons_self _ _)))]
    exact h.start_eq
  have hwfMid : WF (ListenerSlab.mk ls2
      (if A1 = [] then entryPtr (A2 ++ l2) none else s.head)
      (if A2 ++ l2 = [] then lastPtr A1 none else s.tail)
      (if s.start = some key then entryPtr (A2 ++ l2) none else s.start)
      (s.notified - 1) (s.len - 1) key)
      (A1 ++ A2) l2 (key :: fl) := by
    refine splice_wf h hsplit (List.append_assoc _ _ _).symm hdseg hframe hkey hlen
      ?_ h.l2_unnotified hS ?_ ?_
    · intro pr hpr
      refine h.l1_notified pr ?_
      rcases List.mem_append.1 hpr with hin | hin
      · exact List.mem_append_left _ hin
      · exact List.mem_append_right _ (List.mem_cons_of_mem _ hin)
    · show s.notified - 1 = (A1 ++ A2).length
      rw [List.length_append]
      omega
    · show s.len - 1 = (A1 ++ A2).length + l2.length
      rw [List.length_append]
      omega
  have heff : (1 : Nat) = if a then 1 else 1 - (s.notified - 1) := by
    cases a
    · rcases hcase with ha | hempty
      · exact Bool.noConfusion ha
      · have : (A1 ++ A2).length = 0 := by rw [hempty]; rfl
        rw [List.length_append] at this
        have hz : s.notified - 1 = 0 := by omega
        simp [hz]
    · simp
  obtain ⟨s₅, heq2, hwf5, hn5, hl5, _, _, hf5, _⟩ := notify_wf hwfMid 1 a 1 heff
  rw [notify_len_irrel ls2
      (if A1 = [] then entryPtr (A2 ++ l2) none else s.head)
      (if A2 ++ l2 = [] then lastPtr A1 none else s.tail)
      (if s.start = some key then entryPtr (A2 ++ l2) none else s.start)
      (s.notified - 1) s.len (s.len - 1) key 1 a, heq2] at heq
  have hlen5 : s₅.len = s.len - 1 := hl5
  have hlenpos : 1 ≤ s.len := by omega
  refine ⟨s₅, ?_, hwf5, ?_, by omega, hf5⟩
  · rw [heq]
    show some ((State.notified a : State), { s₅ with len := s.len - 1 })
        = some (State.notified a, s₅)
    rw [show s.len - 1 = s₅.len from by omega, s₅.set_len_eta]
  · rw [hn5]
    show s.notified - 1 + min 1 l2.length = (A1 ++ A2).length + min 1 l2.length
    rw [List.length_append]
    omega

theorem set_state_core {s : ListenerSlab} {l1 l2 C D : List (Nat × State)}
    {fl : List Nat} {key : Nat} {st : State}
    (h : WF s l1 l2 fl) (hsplit : l1 ++ l2 = C ++ (key, st) :: D) (st' : State) :
    ∃ pk nx, s.listeners.get? key = some (.listener st pk nx) ∧
      dseg (s.listeners.set key (.listener st' pk nx)) (C ++ (key, st') :: D)
        none s.head none s.tail := by
  have hchain := h.chain
  rw [hsplit] at hchain
  have hnd := h.nodup
  rw [hsplit] at hnd
  rw [List.map_append, List.map_cons, List.nodup_append] at hnd
  obtain ⟨hndC, hndKD, hdisj⟩ := hnd
  rw [List.nodup_cons] at hndKD
  obtain ⟨hkeyD, hndD⟩ := hndKD
  have hkeyC : key ∉ C.map Prod.fst := fun hm => hdisj hm (List.mem_cons_self _ _)
  obtain ⟨m, mk, hC, hKD⟩ := dseg_append_split hchain
  obtain ⟨hm, nx, hk, hD⟩ := hKD
  subst hm
  refine ⟨mk, nx, hk, ?_⟩
  refine dseg_append_join (dseg_set_frame hkeyC hC) ⟨rfl, nx, ?_, dseg_set_frame hkeyD hD⟩
  exact List.get?_set_eq_of_lt _ (lt_of_get?_some hk)

/-- Overwriting the state of a notified (prefix) listener with another
notified state preserves well-formedness. -/
theorem set_state_wf_l1 {s : ListenerSlab} {A1 A2 l2 : List (Nat × State)}
    {fl : List Nat} {key : Nat} {st : State} (st' : State)
    (h : WF s (A1 ++ (key, st) :: A2) l2 fl) (hst' : st'.isNotified = true) :
    ∃ pk nx, s.listeners.get? key = some (.listener st pk nx) ∧
      WF { s with listeners := s.listeners.set key (.listener st' pk nx) }
        (A1 ++ (key, st') :: A2) l2 fl := by
  have hsplit : (A1 ++ (key, st) :: A2) ++ l2 = A1 ++ (key, st) :: (A2 ++ l2) := by
    rw [List.append_assoc]
    rfl
  obtain ⟨pk, nx, hk, hdseg⟩ := set_state_core h hsplit st'
  have hkeymem : key ∈ ((A1 ++ (key, st) :: A2) ++ l2).map Prod.fst := by
    rw [hsplit]
    exact mem_keys_split.2 (Or.inl rfl)
  have hkz : key ≠ 0 := by
    intro h0
    rw [h0, h.sentinel0] at hk
    exact Entry.noConfusion (Option.some.inj hk)
  have hkeq : ((A1 ++ (key, st') :: A2) ++ l2).map Prod.fst
      = ((A1 ++ (key, st) :: A2) ++ l2).map Prod.fst := by
    simp [List.map_append]
  refine ⟨pk, nx, hk, ?_⟩
  constructor
  · show dseg _ ((A1 ++ (key, st') :: A2) ++ l2) none s.head none s.tail
    rw [List.append_assoc, List.cons_append]
    exact hdseg
  · exact h.start_eq
  · intro pr hpr
    rcases List.mem_append.1 hpr with hin | hin
    · exact h.l1_notified pr (List.mem_append_left _ hin)
    · rcases List.mem_cons.1 hin with heqq | hin2
      · rw [heqq]
        exact hst'
      · exact h.l1_notified pr (List.mem_append_right _ (List.mem_cons_of_mem _ hin2))
  · exact h.l2_unnotified
  · show s.len = (A1 ++ (key, st') :: A2).length + l2.length
    rw [h.len_eq]
    simp
  · show s.notified = (A1 ++ (key, st') :: A2).length
    rw [h.notified_eq]
    simp
  · show (((A1 ++ (key, st') :: A2) ++ l2).map Prod.fst).Nodup
    rw [hkeq]
    exact h.nodup
  · show (s.listeners.set key (Entry.listener st' pk nx)).get? 0 = some Entry.sentinel
    rw [List.get?_set_ne _ _ hkz]
    exact h.sentinel0
  · exact freeChain_set_frame (fun hkfl => h.fl_disjoint_keys key hkfl hkeymem) h.free
  · exact h.fl_nodup
  · intro i hi
    rw [List.length_set] at hi
    rcases h.cover i hi with h0 | hmem | hflm
    · exact Or.inl h0
    · refine Or.inr (Or.inl ?_)
      rw [hkeq]
      exact hmem
    · exact Or.inr (Or.inr hflm)

/-- Overwriting the state of an unnotified (suffix) listener with another
unnotified state preserves well-formedness. -/
theorem set_state_wf_l2 {s : ListenerSlab} {l1 B1 B2 : List (Nat × State)}
    {fl : List Nat} {key : Nat} {st : State} (st' : State)
    (h : WF s l1 (B1 ++ (key, st) :: B2) fl) (hst' : st'.isNotified = false) :
    ∃ pk nx, s.listeners.get? key = some (.listener st pk nx) ∧
      WF { s with listeners := s.listeners.set key (.listener st' pk nx) }
        l1 (B1 ++ (key, st') :: B2) fl := by
  have hsplit : l1 ++ (B1 ++ (key, st) :: B2) = (l1 ++ B1) ++ (key, st) :: B2 :=
    (List.append_assoc _ _ _).symm
  obtain ⟨pk, nx, hk, hdseg⟩ := set_state_core h hsplit st'
  have hkeymem : key ∈ (l1 ++ (B1 ++ (key, st) :: B2)).map Prod.fst := by
    rw [hsplit]
    exact mem_keys_split.2 (Or.inl rfl)
  have hkz : key ≠ 0 := by
    intro h0
    rw [h0, h.sentinel0] at hk
    exact Entry.noConfusion (Option.some.inj hk)
  have hkeq : (l1 ++ (B1 ++ (key, st') :: B2)).map Prod.fst
      = (l1 ++ (B1 ++ (key, st) :: B2)).map Prod.fst := by
    simp [List.map_append]
  refine ⟨pk, nx, hk, ?_⟩
  constructor
  · show dseg _ (l1 ++ (B1 ++ (key, st') :: B2)) none s.head none s.tail
    rw [← List.append_assoc]
    exact hdseg
  · show s.start = entryPtr (B1 ++ (key, st') :: B2) none
    rw [h.start_eq]
    cases B1 <;> rfl
  · exact h.l1_notified
  · intro pr hpr
    rcases List.mem_append.1 hpr with hin | hin
    · exact h.l2_unnotified pr (List.mem_append_left _ hin)
    · rcases List.mem_cons.1 hin with heqq | hin2
      · rw [heqq]
        exact hst'
      · exact h.l2_unnotified pr (List.mem_append_right _ (List.mem_cons_of_mem _ hin2))
  · show s.len = l1.length + (B1 ++ (key, st') :: B2).length
    rw [h.len_eq]
    simp
  · exact h.notified_eq
  · show ((l1 ++ (B1 ++ (key, st') :: B2)).map Prod.fst).Nodup
    rw [hkeq]
    exact h.nodup
  · show (s.listeners.set key (Entry.listener st' pk nx)).get? 0 = some Entry.sentinel
    rw [List.get?_set_ne _ _ hkz]
    exact h.sentinel0
  · exact freeChain_set_frame (fun hkfl => h.fl_disjoint_keys key hkfl hkeymem) h.free
  · exact h.fl_nodup
  · intro i hi
    rw [List.length_set] at hi
    rcases h.cover i hi with h0 | hmem | hflm
    · exact Or.inl h0
    · refine Or.inr (Or.inl ?_)
      rw [hkeq]
      exact hmem
    · exact Or.inr (Or.inr hflm)

/-- `ListenerSlab::register` on an already-notified listener: returns
`Some(true)`, empties the handle, frees the slot by a non-propagating removal,
and drops `notified` by exactly one. -/
theorem register_wf_notified {s : ListenerSlab} {A1 A2 l2 : List (Nat × State)}
    {fl : List Nat} {key : Nat} {st : State}
    (h : WF s (A1 ++ (key, st) :: A2) l2 fl) (task : Nat) :
    ∃ s', s.register (some (.hasNode key)) task = some (some true, none, s') ∧
      WF s' (A1 ++ A2) l2 (key :: fl) ∧ s'.notified + 1 = s.notified ∧
      s'.len + 1 = s.len ∧ s'.first_empty = key ∧
      s'.listeners.get? key = some (.empty s.first_empty) := by
  obtain ⟨pk, nx, hk, hwfT⟩ := set_state_wf_l1 State.notifiedTaken h rfl
  obtain ⟨s', hrem, hwf', hn', hl', hf', hg'⟩ := remove_wf_l1_noprop hwfT false (Or.inl rfl)
  have hstn : st.isNotified = true :=
    h.l1_notified (key, st) (List.mem_append_right _ (List.mem_cons_self _ _))
  refine ⟨s', ?_, hwf', hn', hl', hf', hg'⟩
  cases st with
  | created => exact absurd hstn (by simp [State.isNotified])
  | task u => exact absurd hstn (by simp [State.isNotified])
  | notified b =>
      simp only [ListenerSlab.register, hk, hrem, Option.bind_eq_bind, Option.some_bind]
  | notifiedTaken =>
      simp only [ListenerSlab.register, hk, hrem, Option.bind_eq_bind, Option.some_bind]

/-- `ListenerSlab::register` on an unnotified listener: installs the task,
returns `Some(false)` and keeps the handle; nothing else changes. -/
theorem register_wf_unnotified {s : ListenerSlab} {l1 B1 B2 : List (Nat × State)}
    {fl : List Nat} {key : Nat} {st : State}
    (h : WF s l1 (B1 ++ (key, st) :: B2) fl) (task : Nat) :
    ∃ s' u, s.register (some (.hasNode key)) task
        = some (some false, some (.hasNode key), s') ∧
      WF s' l1 (B1 ++ (key, .task u) :: B2) fl ∧
      s'.notified = s.notified ∧ s'.len = s.len ∧
      s'.first_empty = s.first_empty := by
  have hstu : st.isNotified = false :=
    h.l2_unnotified (key, st) (List.mem_append_right _ (List.mem_cons_self _ _))
  cases st with
  | notified b => exact absurd hstu (by simp [State.isNotified])
  | notifiedTaken => exact absurd hstu (by simp [State.isNotified])
  | created =>
      obtain ⟨pk, nx, hk, hwf'⟩ := set_state_wf_l2 (State.task task) h rfl
      refine ⟨_, task, ?_, hwf', rfl, rfl, rfl⟩
      simp only [ListenerSlab.register, hk]
  | task u =>
      by_cases hu : task = u
      · obtain ⟨pk, nx, hk, hwf'⟩ := set_state_wf_l2 (State.task u) h rfl
        refine ⟨_, u, ?_, hwf', rfl, rfl, rfl⟩
        simp only [ListenerSlab.register, hk, if_pos hu]
      · obtain ⟨pk, nx, hk, hwf'⟩ := set_state_wf_l2 (State.task task) h rfl
        refine ⟨_, task, ?_, hwf', rfl, rfl, rfl⟩
        simp only [ListenerSlab.register, hk, if_neg hu]

theorem wf_new : WF ListenerSlab.new [] [] [] := by
  constructor
  · exact ⟨rfl, rfl⟩
  · rfl
  · intro pr hpr
    exact absurd hpr (List.not_mem_nil pr)
  · intro pr hpr
    exact absurd hpr (List.not_mem_nil pr)
  · rfl
  · rfl
  · exact List.nodup_nil
  · rfl
  · rfl
  · exact List.nodup_nil
  · intro i hi
    left
    show i = 0
    have : i < 1 := hi
    omega

theorem mem_keys_decomp {k : Nat} {l : List (Nat × State)}
    (hm : k ∈ l.map Prod.fst) : ∃ st C D, l = C ++ (k, st) :: D := by
  obtain ⟨pr, hpr, hfst⟩ := List.mem_map.1 hm
  obtain ⟨C, D, hCD⟩ := List.append_of_mem hpr
  obtain ⟨k0, st⟩ := pr
  obtain rfl : k0 = k := hfst
  exact ⟨st, C, D, hCD⟩

theorem remove_some_listener {s : ListenerSlab} {key : Nat} {p : Bool} {st : State}
    {s' : ListenerSlab} (heq : s.remove key p = some (st, s')) :
    ∃ st0 pk nx, s.listeners.get? key = some (.listener st0 pk nx) := by
  rcases hg : s.listeners.get? key with _ | entry
  · rw [ListenerSlab.remove] at heq
    rw [hg] at heq
    exact Option.noConfusion heq
  · rcases entry with ⟨st0, pk, nx⟩ | ⟨nxe⟩ | ⟨⟩
    · exact ⟨st0, pk, nx, rfl⟩
    · rw [ListenerSlab.remove] at heq
      rw [hg] at heq
      exact Option.noConfusion heq
    · rw [ListenerSlab.remove] at heq
      rw [hg] at heq
      exact Option.noConfusion heq

theorem register_some_listener {s : ListenerSlab} {key : Nat} {t : Nat}
    {r : Option Bool} {h' : Option Listener} {s' : ListenerSlab}
    (heq : s.register (some (.hasNode key)) t = some (r, h', s')) :
    ∃ st0 pk nx, s.listeners.get? key = some (.listener st0 pk nx) := by
  rcases hg : s.listeners.get? key with _ | entry
  · rw [ListenerSlab.register] at heq
    rw [hg] at heq
    exact Option.noConfusion heq
  · rcases entry with ⟨st0, pk, nx⟩ | ⟨nxe⟩ | ⟨⟩
    · exact ⟨st0, pk, nx, rfl⟩
    · rw [ListenerSlab.register] at heq
      rw [hg] at heq
      exact Option.noConfusion heq
    · rw [ListenerSlab.register] at heq
      rw [hg] at heq
      exact Option.noConfusion heq

/-- Every slab reachable by successful operations satisfies the invariants. -/
theorem reach_wf {s : ListenerSlab} (h : Reach s) : ∃ l1 l2 fl, WF s l1 l2 fl := by
  induction h with
  | new => exact ⟨[], [], [], wf_new⟩
  | insert _ heq ih =>
      obtain ⟨l1, l2, fl, hwf⟩ := ih
      obtain ⟨s'', heq2, hwf', _, _⟩ := insert_wf hwf
      obtain rfl : s'' = _ := congrArg Prod.snd (Option.some.inj (heq2.symm.trans heq))
      exact ⟨_, _, _, hwf'⟩
  | remove _ heq ih =>
      rename_i s key p st s' _
      obtain ⟨l1, l2, fl, hwf⟩ := ih
      obtain ⟨st0, pk, nx, hg⟩ := remove_some_listener heq
      have hmem := hwf.mem_of_listener hg
      rw [List.map_append] at hmem
      rcases List.mem_append.1 hmem with hin | hin
      · -- key in the notified prefix
        obtain ⟨st1, A1, A2, hdec⟩ := mem_keys_decomp hin
        subst hdec
        have hstn : st1.isNotified = true :=
          hwf.l1_notified (key, st1) (List.mem_append_right _ (List.mem_cons_self _ _))
        cases st1 with
        | created => exact absurd hstn (by simp [State.isNotified])
        | task u => exact absurd hstn (by simp [State.isNotified])
        | notifiedTaken =>
            obtain ⟨s'', heq2, hwf', _⟩ := remove_wf_l1_noprop hwf p (Or.inr (Or.inl rfl))
            obtain rfl : s'' = s' := congrArg Prod.snd (Option.some.inj (heq2.symm.trans heq))
            exact ⟨_, _, _, hwf'⟩
        | notified a =>
            cases p with
            | false =>
                obtain ⟨s'', heq2, hwf', _⟩ := remove_wf_l1_noprop hwf false (Or.inl rfl)
                obtain rfl : s'' = s' := congrArg Prod.snd (Option.some.inj (heq2.symm.trans heq))
                exact ⟨_, _, _, hwf'⟩
            | true =>
                cases a with
                | true =>
                    obtain ⟨s'', heq2, hwf', _⟩ := remove_wf_l1_renotify hwf (Or.inl rfl)
                    obtain rfl : s'' = s' := congrArg Prod.snd (Option.some.inj (heq2.symm.trans heq))
                    exact ⟨_, _, _, hwf'⟩
                | false =>
                    by_cases hA : A1 ++ A2 = []
                    · obtain ⟨s'', heq2, hwf', _⟩ := remove_wf_l1_renotify hwf (Or.inr hA)
                      obtain rfl : s'' = s' := congrArg Prod.snd (Option.some.inj (heq2.symm.trans heq))
                      exact ⟨_, _, _, hwf'⟩
                    · obtain ⟨s'', heq2, hwf', _⟩ := remove_wf_l1_noprop hwf true
                        (Or.inr (Or.inr ⟨rfl, rfl, hA⟩))
                      obtain rfl : s'' = s' := congrArg Prod.snd (Option.some.inj (heq2.symm.trans heq))
                      exact ⟨_, _, _, hwf'⟩
      · -- key in the unnotified suffix
        obtain ⟨st1, B1, B2, hdec⟩ := mem_keys_decomp hin
        subst hdec
        obtain ⟨s'', heq2, hwf', _⟩ := remove_wf_l2 hwf p
        obtain rfl : s'' = s' := congrArg Prod.snd (Option.some.inj (heq2.symm.trans heq))
        exact ⟨_, _, _, hwf'⟩
  | notify _ heq ih =>
      obtain ⟨l1, l2, fl, hwf⟩ := ih
      obtain ⟨s'', heq2, hwf', _⟩ := notify_wf hwf _ _ _ rfl
      obtain rfl : s'' = _ := congrArg Prod.fst (Option.some.inj (heq2.symm.trans heq))
      exact ⟨_, _, _, hwf'⟩
  | register _ heq ih =>
      rename_i s h0 t r h' s' _
      obtain ⟨l1, l2, fl, hwf⟩ := ih
      match h0 with
      | none =>
          obtain rfl : s = s' :=
            congrArg (fun pr => pr.2.2) (Option.some.inj heq)
          exact ⟨_, _, _, hwf⟩
      | some .queued =>
          obtain rfl : s = s' :=
            congrArg (fun pr => pr.2.2) (Option.some.inj heq)
          exact ⟨_, _, _, hwf⟩
      | some (.hasNode key) =>
          obtain ⟨st0, pk, nx, hg⟩ := register_some_listener heq
          have hmem := hwf.mem_of_listener hg
          rw [List.map_append] at hmem
          rcases List.mem_append.1 hmem with hin | hin
          · obtain ⟨st1, A1, A2, hdec⟩ := mem_keys_decomp hin
            subst hdec
            obtain ⟨s'', heq2, hwf', _⟩ := register_wf_notified hwf t
            obtain rfl : s'' = s' :=
              congrArg (fun pr => pr.2.2) (Option.some.inj (heq2.symm.trans heq))
            exact ⟨_, _, _, hwf'⟩
          · obtain ⟨st1, B1, B2, hdec⟩ := mem_keys_decomp hin
            subst hdec
            obtain ⟨s'', u, heq2, hwf', _⟩ := register_wf_unnotified hwf t
            obtain rfl : s'' = s' :=
              congrArg (fun pr => pr.2.2) (Option.some.inj (heq2.symm.trans heq))
            exact ⟨_, _, _, hwf'⟩

theorem wf_count {s : ListenerSlab} {l1 l2 : List (Nat × State)} {fl : List Nat}
    (h : WF s l1 l2 fl) :
    s.listeners.length = 1 + (l1 ++ l2).length + fl.length := by
  have hnodup : (0 :: ((l1 ++ l2).map Prod.fst ++ fl)).Nodup := by
    rw [List.nodup_cons]
    constructor
    · intro hmem
      rcases List.mem_append.1 hmem with hin | hin
      · exact h.zero_not_key hin
      · obtain ⟨nx, hg⟩ := freeChain_mem h.free 0 hin
        rw [h.sentinel0] at hg
        exact Entry.noConfusion (Option.some.inj hg)
    · refine List.nodup_append.2 ⟨h.nodup, h.fl_nodup, ?_⟩
      intro a ha hb
      exact h.fl_disjoint_keys a hb ha
  have hext : ∀ a, a ∈ (0 :: ((l1 ++ l2).map Prod.fst ++ fl))
      ↔ a ∈ List.range s.listeners.length := by
    intro a
    constructor
    · intro hmem
      rw [List.mem_range]
      rcases List.mem_cons.1 hmem with h0 | hmem2
      · subst h0
        exact lt_of_get?_some h.sentinel0
      · rcases List.mem_append.1 hmem2 with hin | hin
        · obtain ⟨pr, hpr, hfst⟩ := List.mem_map.1 hin
          obtain ⟨p', nx, hg⟩ := dseg_mem h.chain pr hpr
          rw [hfst] at hg
          exact lt_of_get?_some hg
        · obtain ⟨nx, hg⟩ := freeChain_mem h.free a hin
          exact lt_of_get?_some hg
    · intro hmem
      rw [List.mem_range] at hmem
      rcases h.cover a hmem with h0 | hk | hf
      · exact List.mem_cons.2 (Or.inl h0)
      · exact List.mem_cons.2 (Or.inr (List.mem_append_left _ hk))
      · exact List.mem_cons.2 (Or.inr (List.mem_append_right _ hf))
  have hfin : (0 :: ((l1 ++ l2).map Prod.fst ++ fl)).toFinset
      = (List.range s.listeners.length).toFinset := by
    ext a
    rw [List.mem_toFinset, List.mem_toFinset]
    exact hext a
  have h1 := List.toFinset_card_of_nodup hnodup
  have h2 := List.toFinset_card_of_nodup (List.nodup_range s.listeners.length)
  rw [hfin, h2, List.length_range] at h1
  rw [h1]
  simp only [List.length_cons, List.length_append, List.length_map]
  omega

theorem remove_isSome {s : ListenerSlab} {l1 l2 : List (Nat × State)} {fl : List Nat}
    {key : Nat} (h : WF s l1 l2 fl)
    (hmem : key ∈ (l1 ++ l2).map Prod.fst) (p : Bool) : (s.remove key p).isSome := by
  rw [List.map_append] at hmem
  rcases List.mem_append.1 hmem with hin | hin
  · obtain ⟨st1, A1, A2, hdec⟩ := mem_keys_decomp hin
    subst hdec
    have hstn : st1.isNotified = true :=
      h.l1_notified (key, st1) (List.mem_append_right _ (List.mem_cons_self _ _))
    cases st1 with
    | created => exact absurd hstn (by simp [State.isNotified])
    | task u => exact absurd hstn (by simp [State.isNotified])
    | notifiedTaken =>
        obtain ⟨s'', heq2, _⟩ := remove_wf_l1_noprop h p (Or.inr (Or.inl rfl))
        rw [heq2]
        rfl
    | notified a =>
        cases p with
        | false =>
            obtain ⟨s'', heq2, _⟩ := remove_wf_l1_noprop h false (Or.inl rfl)
            rw [heq2]
            rfl
        | true =>
            cases a with
            | true =>
                obtain ⟨s'', heq2, _⟩ := remove_wf_l1_renotify h (Or.inl rfl)
                rw [heq2]
                rfl
            | false =>
                by_cases hA : A1 ++ A2 = []
                · obtain ⟨s'', heq2, _⟩ := remove_wf_l1_renotify h (Or.inr hA)
                  rw [heq2]
                  rfl
                · obtain ⟨s'', heq2, _⟩ := remove_wf_l1_noprop h true
                    (Or.inr (Or.inr ⟨rfl, rfl, hA⟩))
                  rw [heq2]
                  rfl
  · obtain ⟨st1, B1, B2, hdec⟩ := mem_keys_decomp hin
    subst hdec
    obtain ⟨s'', heq2, _⟩ := remove_wf_l2 h p
    rw [heq2]
    rfl

theorem register_isSome {s : ListenerSlab} {l1 l2 : List (Nat × State)} {fl : List Nat}
    {key : Nat} (h : WF s l1 l2 fl)
    (hmem : key ∈ (l1 ++ l2).map Prod.fst) (t : Nat) :
    (s.register (some (.hasNode key)) t).isSome := by
  rw [List.map_append] at hmem
  rcases List.mem_append.1 hmem with hin | hin
  · obtain ⟨st1, A1, A2, hdec⟩ := mem_keys_decomp hin
    subst hdec
    obtain ⟨s'', heq2, _⟩ := register_wf_notified h t
    rw [heq2]
    rfl
  · obtain ⟨st1, B1, B2, hdec⟩ := mem_keys_decomp hin
    subst hdec
    obtain ⟨s'', u, heq2, _⟩ := register_wf_unnotified h t
    rw [heq2]
    rfl

theorem insertN_wf {k : Nat} :
    ∀ {s : ListenerSlab} {l1 l2 : List (Nat × State)} {fl : List Nat},
      WF s l1 l2 fl →
      ∃ ks s1 fl1, insertN k s = some (ks, s1) ∧ ks.length = k ∧
        WF s1 l1 (l2 ++ ks.map (fun j => (j, State.created))) fl1 := by
  induction k with
  | zero =>
      intro s l1 l2 fl h
      exact ⟨[], s, fl, rfl, rfl, by simpa using h⟩
  | succ k ih =>
      intro s l1 l2 fl h
      obtain ⟨s1, heq1, hwf1, _, _⟩ := insert_wf h
      obtain ⟨ks, s2, fl2, heq2, hklen, hwf2⟩ := ih hwf1
      refine ⟨s.first_empty :: ks, s2, fl2, ?_, by simp [hklen], ?_⟩
      · rw [insertN]
        rw [heq1]
        show (insertN k s1).bind _ = _
        rw [heq2]
        rfl
      · have hass : l2 ++ List.map (fun j => (j, State.created)) (s.first_empty :: ks)
            = (l2 ++ [(s.first_empty, State.created)])
              ++ List.map (fun j => (j, State.created)) ks := by
          simp
        rw [hass]
        exact hwf2

theorem wf_slab3 : WF slab3 [] [(1, .created), (2, .created), (3, .created)] [] := by
  constructor
  · exact ⟨rfl, some 2, rfl, rfl, some 3, rfl, rfl, none, rfl, rfl, rfl⟩
  · rfl
  · intro pr hpr
    exact absurd hpr (List.not_mem_nil pr)
  · intro pr hpr
    simp only [List.mem_cons, List.not_mem_nil, or_false] at hpr
    rcases hpr with rfl | rfl | rfl <;> rfl
  · rfl
  · rfl
  · decide
  · rfl
  · rfl
  · exact List.nodup_nil
  · decide

theorem wf_slab3n2 : WF slab3n2
    [(1, .notified false), (2, .notified false)] [(3, .created)] [] := by
  constructor
  · exact ⟨rfl, some 2, rfl, rfl, some 3, rfl, rfl, none, rfl, rfl, rfl⟩
  · rfl
  · intro pr hpr
    simp only [List.mem_cons, List.not_mem_nil, or_false] at hpr
    rcases hpr with rfl | rfl <;> rfl
  · intro pr hpr
    simp only [List.mem_cons, List.not_mem_nil, or_false] at hpr
    rcases hpr with rfl <;> rfl
  · rfl
  · rfl
  · decide
  · rfl
  · rfl
  · exact List.nodup_nil
  · decide

/-- A live key whose entry holds a notified state must sit in the notified
prefix `l1` of the chain. -/
theorem l1_split_of_notified {s : ListenerSlab} {l1 l2 : List (Nat × State)}
    {fl : List Nat} {key : Nat} {st : State} {pk nx : Option Nat}
    (h : WF s l1 l2 fl)
    (hget : s.listeners.get? key = some (.listener st pk nx))
    (hst : st.isNotified = true) :
    ∃ A1 A2, l1 = A1 ++ (key, st) :: A2 := by
  have hmem := h.mem_of_listener hget
  obtain ⟨st0, C, D, hCD⟩ := mem_keys_decomp hmem
  have hmem0 : (key, st0) ∈ l1 ++ l2 := by
    rw [hCD]
    exact List.mem_append_right C (List.mem_cons_self _ _)
  obtain ⟨p', nx', hg'⟩ := dseg_mem h.chain (key, st0) hmem0
  rw [hget] at hg'
  have h2 := Option.some.inj hg'
  injection h2 with h3 h4 h5
  subst h3
  rcases List.mem_append.1 hmem0 with hin | hin
  · obtain ⟨A1, A2, hA⟩ := List.append_of_mem hin
    exact ⟨A1, A2, hA⟩
  · have hu := h.l2_unnotified (key, st) hin
    rw [hst] at hu
    exact Bool.noConfusion hu

/-- C3: for every well-formed slab, `notify(k, true)` increments the
`notified` counter by exactly `min(k, len - notified_before)`. -/
theorem C3_notify_additional_increment {s : ListenerSlab}
    {l1 l2 : List (Nat × State)} {fl : List Nat} (h : WF s l1 l2 fl) (k : Nat) :
    ∃ s' vis, s.notify k true = some (s', vis) ∧
      s'.notified = s.notified + min k (s.len - s.notified) := by
  obtain ⟨s', heq, -, hn, -, -, -, -, -⟩ := notify_wf h k true k rfl
  refine ⟨s', _, heq, ?_⟩
  rw [hn]
  have h1 : s.len - s.notified = l2.length := by
    rw [h.len_eq, h.notified_eq]
    omega
  rw [h1]

/-- Witness for C3 on a concrete slab with 3 listeners, 2 already notified. -/
theorem C3_witness : ∃ s' vis, slab3n2.notify 5 true = some (s', vis) ∧
    s'.notified = slab3n2.notified + min 5 (slab3n2.len - slab3n2.notified) :=
  C3_notify_additional_increment wf_slab3n2 5

/-- C5: `register` on a live listener whose state is notified returns
`Some(true)`, clears the handle, frees the slot (it becomes an `Empty` entry
at the head of the free list) and decrements `notified` by exactly 1. -/
theorem C5_register_notified_consumes {s : ListenerSlab}
    {l1 l2 : List (Nat × State)} {fl : List Nat} {key : Nat} {st : State}
    {pk nx : Option Nat} (h : WF s l1 l2 fl)
    (hget : s.listeners.get? key = some (.listener st pk nx))
    (hst : st.isNotified = true) (task : Nat) :
    ∃ s', s.register (some (.hasNode key)) task = some (some true, none, s') ∧
      s'.notified + 1 = s.notified ∧
      (∃ nx2, s'.listeners.get? key = some (.empty nx2)) ∧
      s'.first_empty = key := by
  obtain ⟨A1, A2, hA⟩ := l1_split_of_notified h hget hst
  subst hA
  obtain ⟨s', heq, hwf', hn, hl, hf, hg⟩ := register_wf_notified h task
  exact ⟨s', heq, hn, ⟨s.first_empty, hg⟩, hf⟩

/-- Witness for C5: registering listener 1 of `slab3n2` (state
`Notified(false)`). -/
theorem C5_witness : ∃ s',
    slab3n2.register (some (.hasNode 1)) 7 = some (some true, none, s') ∧
    s'.notified + 1 = slab3n2.notified ∧
    (∃ nx2, s'.listeners.get? 1 = some (.empty nx2)) ∧
    s'.first_empty = 1 :=
  C5_register_notified_consumes wf_slab3n2
    (rfl : slab3n2.listeners.get? 1
      = some (Entry.listener (State.notified false) none (some 2))) rfl 7

/-- C6: on a well-formed slab, `insert(Created)` immediately followed by
`remove(key, false)` returns `Created` and restores `head`, `tail`, `start`,
`len` and `notified`; the free-list invariant (a duplicate-free chain from
`first_empty`) still holds afterwards. -/
theorem C6_insert_remove_roundtrip {s : ListenerSlab}
    {l1 l2 : List (Nat × State)} {fl : List Nat} (h : WF s l1 l2 fl) :
    ∃ s1 s2, s.insert .created = some (s.first_empty, s1) ∧
      s1.remove s.first_empty false = some (.created, s2) ∧
      s2.head = s.head ∧ s2.tail = s.tail ∧ s2.start = s.start ∧
      s2.len = s.len ∧ s2.notified = s.notified ∧
      ∃ fl2, freeChain s2.listeners s2.first_empty fl2 ∧ fl2.Nodup := by
  obtain ⟨s1, heq1, hwf1, hlen1, hnot1⟩ := insert_wf h
  obtain ⟨s2, heq2, hwf2, hnot2, hlen2, hfe2, hget2⟩ := remove_wf_l2 hwf1 false
  refine ⟨s1, s2, heq1, heq2, ?_, ?_, ?_, by omega, hnot2.trans hnot1,
    s.first_empty :: fl.tail, hwf2.free, hwf2.fl_nodup⟩
  · refine (dseg_entry hwf2.chain).trans ?_
    rw [List.append_nil]
    exact (dseg_entry h.chain).symm
  · refine (dseg_last hwf2.chain).trans ?_
    rw [List.append_nil]
    exact (dseg_last h.chain).symm
  · refine hwf2.start_eq.trans ?_
    rw [List.append_nil]
    exact h.start_eq.symm

/-- Witness for C6 on the concrete slab `slab3`. -/
theorem C6_witness : ∃ s1 s2,
    slab3.insert .created = some (slab3.first_empty, s1) ∧
    s1.remove slab3.first_empty false = some (.created, s2) ∧
    s2.head = slab3.head ∧ s2.tail = slab3.tail ∧ s2.start = slab3.start ∧
    s2.len = slab3.len ∧ s2.notified = slab3.notified ∧
    ∃ fl2, freeChain s2.listeners s2.first_empty fl2 ∧ fl2.Nodup :=
  C6_insert_remove_roundtrip wf_slab3

/-- C8: on every unlock the public atomic `notified` counter is stored as
`slab.notified` exactly when `slab.notified < slab.len`, and as `usize::MAX`
otherwise, including the empty-slab case `len = 0`. -/
theorem C8_stored_notified (s : ListenerSlab) :
    (s.notified < s.len → storedNotified s = s.notified) ∧
    (¬ s.notified < s.len → storedNotified s = usizeMax) ∧
    (s.len = 0 → storedNotified s = usizeMax) := by
  refine ⟨?_, ?_, ?_⟩
  · intro h1
    rw [storedNotified, if_pos h1]
  · intro h1
    rw [storedNotified, if_neg h1]
  · intro h1
    rw [storedNotified, if_neg (by omega)]

/-- Witness for C8: a partially-notified slab stores the exact count, the
empty slab stores `usize::MAX`. -/
theorem C8_witness :
    (slab3n2.notified < slab3n2.len ∧ storedNotified slab3n2 = 2) ∧
    (ListenerSlab.new.len = 0 ∧ storedNotified ListenerSlab.new = usizeMax) :=
  ⟨⟨by decide, ((C8_stored_notified slab3n2).1 (by decide)).trans rfl⟩,
   ⟨rfl, (C8_stored_notified ListenerSlab.new).2.2 rfl⟩⟩

/-- C9: on a well-formed slab no operation reaches an `unreachable!` branch or
out-of-bounds access: in the embedding every such branch yields `none`, so
`isSome` states that all entry accesses hit the expected variant. Keys are
required to be live listener keys (on the chain from `head`). -/
theorem C9_no_unreachable {s : ListenerSlab} {l1 l2 : List (Nat × State)}
    {fl : List Nat} (h : WF s l1 l2 fl) :
    (s.insert .created).isSome ∧
    (∀ n a, (s.notify n a).isSome) ∧
    (∀ key p, key ∈ (l1 ++ l2).map Prod.fst → (s.remove key p).isSome) ∧
    (∀ key t, key ∈ (l1 ++ l2).map Prod.fst →
      (s.register (some (.hasNode key)) t).isSome) := by
  refine ⟨?_, ?_, ?_, ?_⟩
  · obtain ⟨s', heq, -, -, -⟩ := insert_wf h
    rw [heq]
    rfl
  · intro n a
    obtain ⟨s', heq, -⟩ := notify_wf h n a (if a then n else n - s.notified) rfl
    rw [heq]
    rfl
  · intro key p hmem
    exact remove_isSome h hmem p
  · intro key t hmem
    exact register_isSome h hmem t

/-- Witness for C9 on the concrete slab `slab3`. -/
theorem C9_witness :
    (slab3.insert .created).isSome ∧
    (∀ n a, (slab3.notify n a).isSome) ∧
    (∀ key p, key ∈ (([] : List (Nat × State))
        ++ [(1, State.created), (2, State.created), (3, State.created)]).map
          Prod.fst →
      (slab3.remove key p).isSome) ∧
    (∀ key t, key ∈ (([] : List (Nat × State))
        ++ [(1, State.created), (2, State.created), (3, State.created)]).map
          Prod.fst →
      (slab3.register (some (.hasNode key)) t).isSome) :=
  C9_no_unreachable wf_slab3

/-- C10: `notify(n, additional)` never changes `head`, `tail`, `len`,
`first_empty` or the number of entries, and every entry is either untouched
or is a listener whose state alone is overwritten with
`Notified(additional)` — its `prev`/`next` links survive. Only `start`,
`notified` and the marked states change. -/
theorem C10_notify_frame {s s' : ListenerSlab} {n : Nat} {additional : Bool}
    {vis : List Nat} (h : s.notify n additional = some (s', vis)) :
    s'.head = s.head ∧ s'.tail = s.tail ∧ s'.len = s.len ∧
    s'.first_empty = s.first_empty ∧
    s'.listeners.length = s.listeners.length ∧
    ∀ i, s'.listeners.get? i = s.listeners.get? i ∨
      ∃ st p nx, s.listeners.get? i = some (.listener st p nx) ∧
        s'.listeners.get? i = some (.listener (.notified additional) p nx) := by
  cases additional
  case false =>
    by_cases hc : n ≤ s.notified
    · rw [ListenerSlab.notify, if_neg (by simp), if_pos hc] at h
      have h2 := Option.some.inj h
      have h3 : s = s' := congrArg Prod.fst h2
      rw [← h3]
      exact ⟨rfl, rfl, rfl, rfl, rfl, fun i => Or.inl rfl⟩
    · rw [ListenerSlab.notify, if_neg (by simp), if_neg hc] at h
      exact notifyLoop_frame false _ _ _ _ h
  case true =>
    rw [ListenerSlab.notify, if_pos rfl] at h
    exact notifyLoop_frame true _ _ _ _ h

/-- Witness for C10: `notify(1, false)` on the empty slab succeeds and frames. -/
theorem C10_witness :
    ListenerSlab.new.notify 1 false = some (ListenerSlab.new, []) ∧
    (ListenerSlab.new.head = ListenerSlab.new.head ∧
     ListenerSlab.new.tail = ListenerSlab.new.tail ∧
     ListenerSlab.new.len = ListenerSlab.new.len ∧
     ListenerSlab.new.first_empty = ListenerSlab.new.first_empty ∧
     ListenerSlab.new.listeners.length = ListenerSlab.new.listeners.length ∧
     ∀ i, ListenerSlab.new.listeners.get? i = ListenerSlab.new.listeners.get? i ∨
       ∃ st p nx,
         ListenerSlab.new.listeners.get? i = some (.listener st p nx) ∧
         ListenerSlab.new.listeners.get? i
           = some (.listener (.notified false) p nx)) :=
  ⟨rfl, @C10_notify_frame ListenerSlab.new ListenerSlab.new 1 false [] rfl⟩

/-- C2 counterexample: `slab3n2` satisfies the invariants, listener 1 is a
live listener in state `Notified(false)`, and an unnotified listener (key 3)
remains in the list — yet `remove(1, true)` *decrements* `notified` (2 to 1)
instead of leaving it unchanged: the propagated `notify(1, false)` call is
swallowed by the clamp `n <= notified`, so the notification does not migrate. -/
theorem C2_counterexample :
    WF slab3n2 [(1, State.notified false), (2, State.notified false)]
      [(3, State.created)] [] ∧
    slab3n2.listeners.get? 1
      = some (.listener (.notified false) none (some 2)) ∧
    (State.notified false).isNotified = true ∧
    slab3n2.notified < slab3n2.len ∧
    (∃ s', slab3n2.remove 1 true = some (.notified false, s') ∧
      s'.notified + 1 = slab3n2.notified) ∧
    ¬ (∃ s', slab3n2.remove 1 true = some (.notified false, s') ∧
      s'.notified = slab3n2.notified) := by
  refine ⟨wf_slab3n2, rfl, rfl, by decide, ⟨slab3n2r, rfl, rfl⟩, ?_⟩
  rintro ⟨s', h1, h2⟩
  have h0 : slab3n2.remove 1 true = some (State.notified false, slab3n2r) := rfl
  have h3 := Option.some.inj (h0.symm.trans h1)
  have h4 : slab3n2r.notified = s'.notified :=
    congrArg (fun pr => (Prod.snd pr).notified) h3
  have h5 : (1 : Nat) = 2 := h4.trans h2
  exact absurd h5 (by decide)

/-- C2 (amended): removing a live notified listener with `propagate = true`
keeps `notified` unchanged only when an unnotified listener remains AND the
re-issued notification actually lands: either the removed state was
`Notified(true)` (additional notify, never clamped), or it was
`Notified(false)` and it was the only notified listener (`notified = 1`, so
the clamp `1 <= notified - 1` fails). In every other case — including
`Notified(false)` with other notified listeners still present, and
`NotifiedTaken` (which never propagates) — `notified` decrements by 1. -/
theorem C2_remove_propagate_amended {s : ListenerSlab}
    {l1 l2 : List (Nat × State)} {fl : List Nat} {key : Nat} {st : State}
    {pk nx : Option Nat} (h : WF s l1 l2 fl)
    (hget : s.listeners.get? key = some (.listener st pk nx))
    (hst : st.isNotified = true) :
    ∃ s', s.remove key true = some (st, s') ∧
      s'.notified = if s.notified < s.len ∧ (st = State.notified true ∨
          (st = State.notified false ∧ s.notified = 1))
        then s.notified else s.notified - 1 := by
  obtain ⟨A1, A2, hA⟩ := l1_split_of_notified h hget hst
  subst hA
  have hkeylen : s.notified = (A1 ++ A2).length + 1 := by
    rw [h.notified_eq]
    simp only [List.length_append, List.length_cons]
    omega
  have hlens : s.len = s.notified + l2.length := by
    rw [h.len_eq, h.notified_eq]
  cases st with
  | created => exact absurd hst (by simp [State.isNotified])
  | task u => exact absurd hst (by simp [State.isNotified])
  | notifiedTaken =>
      obtain ⟨s', heq, -, hn, -, -, -⟩ := remove_wf_l1_noprop h true (Or.inr (Or.inl rfl))
      refine ⟨s', heq, ?_⟩
      have hcond : ¬ (s.notified < s.len ∧ (State.notifiedTaken = State.notified true ∨
          (State.notifiedTaken = State.notified false ∧ s.notified = 1))) := by
        rintro ⟨-, h1 | ⟨h1, -⟩⟩ <;> exact State.noConfusion h1
      rw [if_neg hcond]
      omega
  | notified a =>
      cases a with
      | true =>
          obtain ⟨s', heq, -, hn, -, -⟩ := remove_wf_l1_renotify h (Or.inl rfl)
          refine ⟨s', heq, ?_⟩
          cases l2 with
          | nil =>
              have hcond : ¬ (s.notified < s.len ∧
                  (State.notified true = State.notified true ∨
                    (State.notified true = State.notified false ∧ s.notified = 1))) := by
                rintro ⟨hlt, -⟩
                rw [hlens] at hlt
                simp only [List.length_nil] at hlt
                omega
              rw [if_neg hcond, hn]
              simp only [List.length_nil, Nat.min_zero]
              omega
          | cons b bs =>
              have hcond : s.notified < s.len ∧
                  (State.notified true = State.notified true ∨
                    (State.notified true = State.notified false ∧ s.notified = 1)) := by
                refine ⟨?_, Or.inl rfl⟩
                rw [hlens]
                simp only [List.length_cons]
                omega
              have hmin : min 1 (List.length (b :: bs)) = 1 := by
                apply min_eq_left
                simp only [List.length_cons]
                omega
              rw [if_pos hcond, hn, hmin]
              omega
      | false =>
          by_cases hone : A1 ++ A2 = []
          · obtain ⟨s', heq, -, hn, -, -⟩ := remove_wf_l1_renotify h (Or.inr hone)
            refine ⟨s', heq, ?_⟩
            rw [hone] at hn hkeylen
            simp only [List.length_nil, Nat.zero_add] at hn hkeylen
            cases l2 with
            | nil =>
                have hcond : ¬ (s.notified < s.len ∧
                    (State.notified false = State.notified true ∨
                      (State.notified false = State.notified false ∧ s.notified = 1))) := by
                  rintro ⟨hlt, -⟩
                  rw [hlens] at hlt
                  simp only [List.length_nil] at hlt
                  omega
                rw [if_neg hcond, hn]
                simp only [List.length_nil, Nat.min_zero]
                omega
            | cons b bs =>
                have hcond : s.notified < s.len ∧
                    (State.notified false = State.notified true ∨
                      (State.notified false = State.notified false ∧ s.notified = 1)) := by
                  refine ⟨?_, Or.inr ⟨rfl, hkeylen⟩⟩
                  rw [hlens]
                  simp only [List.length_cons]
                  omega
                have hmin : min 1 (List.length (b :: bs)) = 1 := by
                  apply min_eq_left
                  simp only [List.length_cons]
                  omega
                rw [if_pos hcond, hn, hmin]
                omega
          · obtain ⟨s', heq, -, hn, -, -, -⟩ := remove_wf_l1_noprop h true
              (Or.inr (Or.inr ⟨rfl, rfl, hone⟩))
            refine ⟨s', heq, ?_⟩
            have h3 : (A1 ++ A2).length ≠ 0 := by
              intro h4
              exact hone (List.length_eq_zero.1 h4)
            have hcond : ¬ (s.notified < s.len ∧
                (State.notified false = State.notified true ∨
                  (State.notified false = State.notified false ∧ s.notified = 1))) := by
              rintro ⟨-, h1 | ⟨-, h2⟩⟩
              · exact Bool.noConfusion (State.notified.inj h1)
              · omega
            rw [if_neg hcond]
            omega

/-- Witness for the amended C2: removing listener 1 of `slab3n2`
(`Notified(false)` with another notified listener present) decrements
`notified`. -/
theorem C2_witness : ∃ s', slab3n2.remove 1 true
      = some (State.notified false, s') ∧
    s'.notified = if slab3n2.notified < slab3n2.len ∧
        (State.notified false = State.notified true ∨
          (State.notified false = State.notified false ∧ slab3n2.notified = 1))
      then slab3n2.notified else slab3n2.notified - 1 :=
  C2_remove_propagate_amended wf_slab3n2
    (rfl : slab3n2.listeners.get? 1
      = some (Entry.listener (State.notified false) none (some 2))) rfl

/-- C4: from a fully-unnotified slab (`notified = 0`), one `notify(n, false)`
leaves the counter at exactly `min(n, len)`, and every further
`notify(n, false)` with the same `n` is a no-op returning the slab unchanged. -/
theorem C4_notify_clamp_idempotent {s : ListenerSlab}
    {l1 l2 : List (Nat × State)} {fl : List Nat} (h : WF s l1 l2 fl)
    (h0 : s.notified = 0) (n : Nat) :
    ∃ s1 vis, s.notify n false = some (s1, vis) ∧
      s1.notified = min n s.len ∧ s1.len = s.len ∧
      s1.notify n false = some (s1, []) ∧
      ∀ j, repeatNotify n j s1 = some s1 := by
  have e := h.notified_eq
  rw [h0] at e
  have hl1 : l1 = [] := List.length_eq_zero.1 e.symm
  subst hl1
  have hlens : s.len = l2.length := by
    rw [h.len_eq]
    simp
  obtain ⟨s1, heq, hwf1, hn1, hlen1, -, -, -, -⟩ := notify_wf h n false n (by simp [h0])
  have hn1' : s1.notified = min n l2.length := by
    rw [hn1, h0, Nat.zero_add]
  have hfix : s1.notify n false = some (s1, []) := by
    by_cases hc : n ≤ l2.length
    · have hns : s1.notified = n := by
        rw [hn1']
        exact min_eq_left hc
      rw [ListenerSlab.notify, if_neg (by simp), if_pos (le_of_eq hns.symm)]
    · have hns : s1.notified = l2.length := by
        rw [hn1']
        exact min_eq_right (le_of_not_le hc)
      have hstart : s1.start = none := by
        have hse := hwf1.start_eq
        rw [List.drop_eq_nil_of_le (le_of_not_le hc)] at hse
        exact hse
      rw [ListenerSlab.notify, if_neg (by simp), if_neg (by omega)]
      exact notifyLoop_start_none hstart
  refine ⟨s1, _, heq, ?_, hlen1, hfix, ?_⟩
  · rw [hn1', hlens]
  · intro j
    induction j with
    | zero => rfl
    | succ j ih =>
        show (s1.notify n false).bind (fun pr => repeatNotify n j pr.1) = some s1
        rw [hfix]
        exact ih

/-- Witness for C4 on `slab3` with `n = 2`. -/
theorem C4_witness : ∃ s1 vis, slab3.notify 2 false = some (s1, vis) ∧
    s1.notified = min 2 slab3.len ∧ s1.len = slab3.len ∧
    s1.notify 2 false = some (s1, []) ∧
    ∀ j, repeatNotify 2 j s1 = some s1 :=
  C4_notify_clamp_idempotent wf_slab3 rfl 2

/-- C7: on every slab reachable from `new` by `insert(Created)`, `remove`,
`notify` and `register`, the free list chased from `first_empty` via
`Empty(next_empty)` links is duplicate-free, contains exactly the `Empty`
entries (each visited once), has exactly `entries.len() - 1 - len` of them,
and terminates at `entries.len()` (that termination is the base case of
`freeChain`). -/
theorem C7_free_list_invariant {s : ListenerSlab} (h : Reach s) :
    ∃ fl, freeChain s.listeners s.first_empty fl ∧ fl.Nodup ∧
      (∀ i, (∃ nx, s.listeners.get? i = some (.empty nx)) ↔ i ∈ fl) ∧
      fl.length + 1 + s.len = s.listeners.length := by
  obtain ⟨l1, l2, fl, hwf⟩ := reach_wf h
  refine ⟨fl, hwf.free, hwf.fl_nodup, ?_, ?_⟩
  · intro i
    constructor
    · rintro ⟨nx, hg⟩
      rcases hwf.cover i (lt_of_get?_some hg) with h0 | hk | hf
      · subst h0
        rw [hwf.sentinel0] at hg
        exact Entry.noConfusion (Option.some.inj hg)
      · obtain ⟨pr, hpr, hfst⟩ := List.mem_map.1 hk
        obtain ⟨p', nx2, hg2⟩ := dseg_mem hwf.chain pr hpr
        rw [hfst, hg] at hg2
        exact Entry.noConfusion (Option.some.inj hg2)
      · exact hf
    · intro hf
      exact freeChain_mem hwf.free i hf
  · have hc := wf_count hwf
    rw [hwf.len_eq, hc]
    simp only [List.length_append]
    omega

/-- Witness for C7 on `slab3`, reached by three inserts from the empty slab. -/
theorem C7_witness : ∃ fl, freeChain slab3.listeners slab3.first_empty fl ∧
    fl.Nodup ∧
    (∀ i, (∃ nx, slab3.listeners.get? i = some (.empty nx)) ↔ i ∈ fl) ∧
    fl.length + 1 + slab3.len = slab3.listeners.length :=
  C7_free_list_invariant
    (Reach.insert (Reach.insert (Reach.insert Reach.new rfl) rfl) rfl)

/-- C1: inserting `k` listeners into the empty slab and then calling
`notify(m, false)` with `m >= k` marks every inserted listener
`Notified(false)`, and the notify loop visits the keys exactly in insertion
order (the visited-key list equals the inserted-key list). -/
theorem C1_fifo_notify_all {k m : Nat} (hkm : k ≤ m) :
    ∃ ks s1 s2, insertN k ListenerSlab.new = some (ks, s1) ∧ ks.length = k ∧
      s1.notify m false = some (s2, ks) ∧
      ∀ key ∈ ks, ∃ p nx,
        s2.listeners.get? key = some (.listener (.notified false) p nx) := by
  obtain ⟨ks, s1, fl1, heq1, hklen, hwf1⟩ :=
    @insertN_wf k ListenerSlab.new [] [] [] wf_new
  have hwf1' : WF s1 [] (ks.map (fun j => (j, State.created))) fl1 := by
    simpa using hwf1
  have hnot1 : s1.notified = 0 := by
    simpa using hwf1'.notified_eq
  obtain ⟨s2, heq2, hwf2, -, -, -, -, -, -⟩ := notify_wf hwf1' m false m (by simp [hnot1])
  have htake : (ks.map (fun j => (j, State.created))).take m
      = ks.map (fun j => (j, State.created)) := by
    apply List.take_of_length_le
    rw [List.length_map, hklen]
    exact hkm
  have hvis : ((ks.map (fun j => (j, State.created))).take m).map Prod.fst = ks := by
    rw [htake, List.map_map]
    have hcompid : (Prod.fst ∘ fun j : Nat => (j, State.created)) = id := rfl
    rw [hcompid, List.map_id]
  rw [hvis] at heq2
  refine ⟨ks, s1, s2, heq1, hklen, heq2, ?_⟩
  intro key hkey
  have hmem1 : (key, State.created) ∈ ks.map (fun j => (j, State.created)) :=
    List.mem_map.2 ⟨key, hkey, rfl⟩
  have hmem : (key, State.notified false)
      ∈ [] ++ markN false ((ks.map (fun j => (j, State.created))).take m) := by
    rw [htake]
    exact List.mem_append_right _ (List.mem_map.2 ⟨(key, State.created), hmem1, rfl⟩)
  obtain ⟨p', nx', hg⟩ := dseg_mem hwf2.chain (key, State.notified false)
    (List.mem_append_left _ hmem)
  exact ⟨p', nx', hg⟩

/-- Witness for C1 with `k = 2`, `m = 3`. -/
theorem C1_witness : ∃ ks s1 s2,
    insertN 2 ListenerSlab.new = some (ks, s1) ∧ ks.length = 2 ∧
    s1.notify 3 false = some (s2, ks) ∧
    ∀ key ∈ ks, ∃ p nx,
      s2.listeners.get? key = some (.listener (.notified false) p nx) :=
  C1_fifo_notify_all (by decide)

end EventListener
